import Mathlib

/-!
Verification of the EER Studio text ⇄ model synchronization core.

The program under study is a single-file React/TypeScript application.  Its
core is the function `parseCode`, which turns line-oriented DSL text into a
node/link diagram model, and the function `updateCodePosition`, which writes a
node's dragged position back into the text line that declared the node.

This file is a shallow embedding of that core:

* a Document is modelled as a `List (List Char)` — the list of lines obtained
  from the JS `code.split('\n')`; the final `lines.join('\n')` of the
  write-back path is the inverse boundary conversion and is elided, so both
  operations here work directly on the line list;
* JS strings are modelled as `List Char`; JS `undefined` string slots
  (`parts[i]` past the end of the token array) are modelled as `none` of an
  `Option (List Char)`;
* the regular expression `COORD_REGEX = /\(\s*(-?\d+),\s*(-?\d+)\s*\)/` is
  implemented as an explicit leftmost-match scanner (`findCoord`), whose
  deterministic maximal-munch behaviour coincides with the backtracking regex
  semantics because every repetition in the pattern is followed by a literal
  outside its character class;
* JS `trim`/`trimEnd` and the `\s` class are modelled on the ASCII whitespace
  characters (the exotic Unicode whitespace accepted by JS never interacts
  with the claims, which quantify over documents of the embedded alphabet);
* the floating-point spiral of `getDefaultPos` (`Math.cos`/`Math.sin` over
  IEEE doubles) cannot be embedded exactly; it is modelled by a fixed-point
  integer computation (scale `10^6`) with truncated Taylor polynomials
  standing in for cosine and sine, so that it stays kernel-evaluable.  Every
  claim proved about it depends only on the function being a deterministic,
  integer-valued function of the per-parse step counter, which is true of the
  original and of the stand-in alike.
-/

set_option maxHeartbeats 1000000

namespace EER

/-- ASCII part of the JS whitespace class `\s` (and of `trim`). -/
def isWsChar (c : Char) : Bool :=
  c = ' ' || c = '\t' || c = '\n' || c = '\r' || c = '\x0b' || c = '\x0c'

/-- Decimal digit character for a value below ten (printing helper). -/
def digitChar (n : Nat) : Char :=
  if n = 0 then '0' else if n = 1 then '1' else if n = 2 then '2'
  else if n = 3 then '3' else if n = 4 then '4' else if n = 5 then '5'
  else if n = 6 then '6' else if n = 7 then '7' else if n = 8 then '8' else '9'

/-- Fuel-based recursion body of `natDigits` (structural recursion so that the
kernel can evaluate it; the fuel `n + 1` always suffices). -/
def natDigitsAux : Nat → Nat → List Char
  | 0, _ => []
  | fuel + 1, n =>
    if n < 10 then [digitChar n]
    else natDigitsAux fuel (n / 10) ++ [digitChar (n % 10)]

/-- Decimal digits of a natural number, as produced by a JS template literal
such as the `${index}` in the id rule and the `${Math.round(newX)}` of the
write-back serializer. -/
def natDigits (n : Nat) : List Char := natDigitsAux (n + 1) n

/-- Numeric value of a digit string (the semantics of `parseInt(s, 10)` on the
strings captured by the regex group `\d+`). -/
def digitsVal (ds : List Char) : Nat :=
  ds.foldl (fun a c => 10 * a + (c.toNat - 48)) 0

/-- Decimal rendering of an integer, as in a JS template literal. -/
def intDigits (i : Int) : List Char :=
  if i < 0 then '-' :: natDigits i.natAbs else natDigits i.toNat

/-- `Math.round` of JS, exact on rationals: round half toward positive
infinity. -/
def jsRound (q : ℚ) : Int := ⌊q + 1 / 2⌋

/-- Parse a maximal nonempty run of decimal digits (`\d+`). -/
def digitsP (cs : List Char) : Option (Nat × List Char) :=
  let d := cs.takeWhile Char.isDigit
  if d = [] then none else some (digitsVal d, cs.dropWhile Char.isDigit)

/-- Parse `-?\d+` and return its integer value. -/
def signedIntP (cs : List Char) : Option (Int × List Char) :=
  if cs.headD ' ' = '-' then (digitsP cs.tail).map (fun p => (-(p.1 : Int), p.2))
  else (digitsP cs).map (fun p => ((p.1 : Int), p.2))

/-- Parse `\s*-?\d+`. -/
def wsInt (cs : List Char) : Option (Int × List Char) :=
  signedIntP (cs.dropWhile isWsChar)

/-- A successful match of `COORD_REGEX` inside a line: the text before the
match, the two captured integers, and the text after the match. -/
structure CoordMatch where
  pre : List Char
  x : Int
  y : Int
  rest : List Char
deriving DecidableEq

/-- Attempt to match `COORD_REGEX = /\(\s*(-?\d+),\s*(-?\d+)\s*\)/` at the
start of the text; on success return the two integers and the trailing text. -/
def coordHere (cs : List Char) : Option (Int × Int × List Char) :=
  match cs with
  | [] => none
  | c :: cs₁ =>
    if c = '(' then
      match wsInt cs₁ with
      | none => none
      | some (x, cs₂) =>
        match cs₂ with
        | [] => none
        | c₂ :: cs₃ =>
          if c₂ = ',' then
            match wsInt cs₃ with
            | none => none
            | some (y, cs₄) =>
              match cs₄.dropWhile isWsChar with
              | [] => none
              | c₅ :: cs₅ => if c₅ = ')' then some (x, y, cs₅) else none
          else none
    else none

/-- Leftmost match of `COORD_REGEX` in a line (the semantics of
`line.match(COORD_REGEX)` for a non-global regex). -/
def findCoord : List Char → Option CoordMatch
  | [] => none
  | c :: cs =>
    match coordHere (c :: cs) with
    | some (x, y, rest) => some ⟨[], x, y, rest⟩
    | none =>
      match findCoord cs with
      | some m => some ⟨c :: m.pre, m.x, m.y, m.rest⟩
      | none => none

/-- `line.replace(COORD_REGEX, '')`: remove the leftmost coordinate match;
identity when there is none. -/
def stripCoord (cs : List Char) : List Char :=
  match findCoord cs with
  | some m => m.pre ++ m.rest
  | none => cs

/-- JS `String.trimStart` (ASCII subset). -/
def trimStart (cs : List Char) : List Char := cs.dropWhile isWsChar

/-- JS `String.trimEnd` (ASCII subset). -/
def trimEnd : List Char → List Char
  | [] => []
  | c :: cs =>
    let r := trimEnd cs
    if r = [] then (if isWsChar c then [] else [c]) else c :: r

/-- JS `String.trim` (ASCII subset). -/
def trim (cs : List Char) : List Char := trimEnd (trimStart cs)

/-- `s.split(/\s+/)` restricted to the trimmed strings the parser feeds it:
the maximal runs of non-whitespace characters, and the singleton `[[]]` (JS
`[""]`) on empty input.  (On strings with leading whitespace JS would emit a
leading empty token; the parser only ever splits trimmed text, where the two
agree.) -/
def splitWsStep (c : Char) (acc : List (List Char)) : List (List Char) :=
  if isWsChar c then [] :: acc
  else
    match acc with
    | [] => [[c]]
    | w :: ws => (c :: w) :: ws

def splitWs (cs : List Char) : List (List Char) :=
  let toks := (cs.foldr splitWsStep []).filter (fun w => w ≠ [])
  if toks = [] then [[]] else toks

/-- JS truthiness of a possibly-undefined string. -/
def jsTruthy : Option (List Char) → Bool
  | none => false
  | some s => s ≠ []

/-- JS `a || b` on a possibly-undefined string with a string default. -/
def jsOrElse (o : Option (List Char)) (d : List Char) : List Char :=
  match o with
  | some s => if s = [] then d else s
  | none => d

/-- Text produced by interpolating a possibly-undefined JS string into a
template literal: `undefined` prints as the string "undefined". -/
def optText (o : Option (List Char)) : List Char :=
  o.getD ('u' :: 'n' :: 'd' :: 'e' :: 'f' :: 'i' :: 'n' :: 'e' :: 'd' :: [])

/-- Substring test (`String.includes`). -/
def containsSub (needle : List Char) : List Char → Bool
  | [] => needle = []
  | c :: t => needle.isPrefixOf (c :: t) || containsSub needle t

/-- Attempt to match `/"([^"]+)"/` at the start of the text. -/
def quotedHere (cs : List Char) : Option (List Char) :=
  match cs with
  | [] => none
  | c :: cs₁ =>
    if c = '"' then
      let lab := cs₁.takeWhile (fun x => x ≠ '"')
      if lab = [] then none
      else
        match cs₁.dropWhile (fun x => x ≠ '"') with
        | [] => none
        | c₂ :: _ => if c₂ = '"' then some lab else none
    else none

/-- Leftmost match of the quoted-label pattern `/"([^"]+)"/`. -/
def findQuoted : List Char → Option (List Char)
  | [] => none
  | c :: cs =>
    match quotedHere (c :: cs) with
    | some lab => some lab
    | none => findQuoted cs

/-- The closed set of node kinds of the model. -/
inductive NodeType
  | entity
  | weak_entity
  | relationship
  | identifying_relationship
  | attribute
  | key_attribute
  | multivalued_attribute
  | derived_attribute
  | specialization
  | union
deriving DecidableEq

/-- `NodeData` of the source.  `id` and `label` are `Option` because the JS
code stores `parts[1]`, which is `undefined` when the token is missing. -/
structure NodeData where
  id : Option (List Char)
  type : NodeType
  label : Option (List Char)
  x : Int
  y : Int
  meta : Option (List Char)
  lineIndex : Nat
deriving DecidableEq

/-- Link participation style. -/
inductive LinkStyle
  | solid
  | double
deriving DecidableEq

/-- `LinkData` of the source. -/
structure LinkData where
  source : Option (List Char)
  target : Option (List Char)
  label : List Char
  style : LinkStyle
deriving DecidableEq

/-- The accumulating state of one `parseCode` pass: the node and link lists
under construction, the set of allocated ids (a JS `Set`, modelled as a list
queried by membership; it may hold the `undefined` value), and the number of
`getDefaultPos` calls made so far (the JS closure variable `angle` equals
`0.6 ·` this counter). -/
structure ParseState where
  nodes : List NodeData
  links : List LinkData
  existingIds : List (Option (List Char))
  steps : Nat
deriving DecidableEq

/-- `getDefaultPos` of the source: the call made when `steps` previous calls
have happened in this parse pass.  The closure increments `angle` by `0.6`
first, so this call sees `angle = 0.6 * (steps + 1)`; the radius is
`250 + angle * 15`, the centre `(400, 300)`, and both coordinates are rounded
to integers with `Math.round`.  The IEEE `Math.cos`/`Math.sin` are not
embeddable exactly; they are replaced here by fixed-point Taylor stand-ins
over `ℤ` (scale `10^6`), keeping the function a deterministic integer-valued
function of the per-parse step counter — the only property of the original
that the claims rely on. -/
def getDefaultPos (steps : Nat) : Int × Int :=
  let scale : Int := 1000000
  let angle : Int := 600000 * ((steps : Int) + 1)
  let radius : Int := 250 * scale + 15 * angle
  let a2 := angle * angle / scale
  let a3 := a2 * angle / scale
  let a4 := a3 * angle / scale
  let a5 := a4 * angle / scale
  let a6 := a5 * angle / scale
  let c := scale - a2 / 2 + a4 / 24 - a6 / 720
  let sn := angle - a3 / 6 + a5 / 120
  (400 + c * radius / (scale * scale), 300 + sn * radius / (scale * scale))

/-- Command tokens. -/
def entTok : List Char := ['e', 'n', 't']

def weakEntTok : List Char := ['w', 'e', 'a', 'k', '_', 'e', 'n', 't']

def relTok : List Char := ['r', 'e', 'l']

def identRelTok : List Char := ['i', 'd', 'e', 'n', 't', '_', 'r', 'e', 'l']

def attTok : List Char := ['a', 't', 't']

def keyAttTok : List Char := ['k', 'e', 'y', '_', 'a', 't', 't']

def derivedAttTok : List Char := ['d', 'e', 'r', 'i', 'v', 'e', 'd', '_', 'a', 't', 't']

def multiAttTok : List Char :=
  ['m', 'u', 'l', 't', 'i', 'v', 'a', 'l', 'u', 'e', 'd', '_',
   'a', 't', 't', 'r', 'i', 'b', 'u', 't', 'e']

def specTok : List Char := ['s', 'p', 'e', 'c']

def unionTok : List Char := ['u', 'n', 'i', 'o', 'n']

def linkTok : List Char := ['l', 'i', 'n', 'k']

def arrowTok : List Char := ['-', '>']

def totalTok : List Char := ['[', 't', 'o', 't', 'a', 'l', ']']

def doubleTok : List Char := ['[', 'd', 'o', 'u', 'b', 'l', 'e', ']']

def specPrefixTok : List Char := ['s', 'p', 'e', 'c', '_']

/-- The node-declaring command keywords. -/
def nodeCommandTokens : List (List Char) :=
  [entTok, weakEntTok, relTok, identRelTok, attTok, keyAttTok, derivedAttTok, multiAttTok]

/-- The attribute-kind command keywords. -/
def attCommandTokens : List (List Char) :=
  [attTok, keyAttTok, derivedAttTok, multiAttTok]

/-- All recognized command keywords. -/
def recognizedCommandTokens : List (List Char) :=
  nodeCommandTokens ++ [specTok, unionTok, linkTok]

/-- The `if`-chain of the source assigning a `NodeType` to a node-declaring
command (starting from the default `'entity'`). -/
def nodeTypeOf (command : List Char) : NodeType :=
  if command = weakEntTok then .weak_entity
  else if command = relTok then .relationship
  else if command = identRelTok then .identifying_relationship
  else if command = attTok then .attribute
  else if command = keyAttTok then .key_attribute
  else if command = derivedAttTok then .derived_attribute
  else if command = multiAttTok then .multivalued_attribute
  else .entity

/-- Comment test: trimmed line starting with `//`. -/
def isComment : List Char → Bool
  | c :: d :: _ => c = '/' && d = '/'
  | _ => false

/-- The trimmed line (`cleanLine` of the source). -/
def cleanOf (line : List Char) : List Char := trim line

/-- The coordinate-stripped, re-trimmed line (`lineWithoutCoords`). -/
def strippedOf (line : List Char) : List Char := trim (stripCoord (trim line))

/-- The whitespace token split of the coordinate-stripped line (`parts`). -/
def partsOf (line : List Char) : List (List Char) := splitWs (strippedOf line)

/-- The lower-cased first token (`command`). -/
def commandOf (line : List Char) : List Char :=
  ((partsOf line).headD []).map Char.toLower

/-- Branch of `parseCode` for the eight node-declaring commands. -/
def nodeBranch (index : Nat) (st : ParseState) (xy : Option (Int × Int))
    (parts : List (List Char)) (command : List Char) : ParseState :=
  let label := parts.get? 1
  let isAttribute := command ∈ attCommandTokens
  let id :=
    if isAttribute ∨ label ∈ st.existingIds then
      some (optText label ++ '_' :: natDigits index)
    else label
  let posSteps :=
    match xy with
    | some p => (p, st.steps)
    | none => (getDefaultPos st.steps, st.steps + 1)
  let nd : NodeData :=
    ⟨id, nodeTypeOf command, label, posSteps.1.1, posSteps.1.2, none, index⟩
  let links :=
    if parts.get? 2 = some arrowTok ∧ jsTruthy (parts.get? 3) then
      st.links ++ [⟨parts.get? 3, id, [], .solid⟩]
    else st.links
  ⟨st.nodes ++ [nd], links, st.existingIds ++ [id], posSteps.2⟩

/-- Branch of `parseCode` for `spec` and `union`. -/
def specBranch (index : Nat) (st : ParseState) (xy : Option (Int × Int))
    (parts : List (List Char)) (command : List Char) : ParseState :=
  let meta := jsOrElse (parts.get? 1) (if command = unionTok then ['u'] else ['d'])
  let id₀ := jsOrElse (parts.get? 1) (specPrefixTok ++ natDigits index)
  let id :=
    if some id₀ ∈ st.existingIds then id₀ ++ '_' :: natDigits index else id₀
  let posSteps :=
    match xy with
    | some p => (p, st.steps)
    | none => (getDefaultPos st.steps, st.steps + 1)
  let nd : NodeData :=
    ⟨some id, (if command = unionTok then .union else .specialization),
     some meta, posSteps.1.1, posSteps.1.2, some meta, index⟩
  let links :=
    if parts.get? 2 = some arrowTok ∧ jsTruthy (parts.get? 3) then
      st.links ++ [⟨parts.get? 3, some id, [], .double⟩]
    else st.links
  ⟨st.nodes ++ [nd], links, st.existingIds ++ [some id], posSteps.2⟩

/-- Branch of `parseCode` for `link`. -/
def linkBranch (st : ParseState) (parts : List (List Char))
    (lineWithoutCoords : List Char) : ParseState :=
  let source := parts.get? 1
  let target := parts.get? 2
  let label := (findQuoted lineWithoutCoords).getD []
  let style : LinkStyle :=
    if containsSub totalTok lineWithoutCoords ∨ containsSub doubleTok lineWithoutCoords
    then .double else .solid
  if jsTruthy source ∧ jsTruthy target then
    { st with links := st.links ++ [⟨source, target, label, style⟩] }
  else st

/-- Processing of one line of `parseCode` (the body of the `lines.forEach`).
Blank and `//` lines are skipped; otherwise the coordinate pair is extracted
and removed, the rest is tokenized, and the command keyword dispatches to one
of the three statement branches; an unrecognized keyword leaves the state
untouched. -/
def processLine (index : Nat) (st : ParseState) (line : List Char) : ParseState :=
  let cleanLine := cleanOf line
  if cleanLine = [] then st
  else if isComment cleanLine then st
  else
    let xy : Option (Int × Int) := (findCoord cleanLine).map (fun m => (m.x, m.y))
    let lineWithoutCoords := strippedOf line
    let parts := partsOf line
    let command := commandOf line
    if command ∈ nodeCommandTokens then nodeBranch index st xy parts command
    else if command = specTok ∨ command = unionTok then
      specBranch index st xy parts command
    else if command = linkTok then linkBranch st parts lineWithoutCoords
    else st

/-- Left fold of `processLine` over the lines, carrying the line index. -/
def processLines : Nat → ParseState → List (List Char) → ParseState
  | _, st, [] => st
  | i, st, l :: ls => processLines (i + 1) (processLine i st l) ls

/-- The state at the start of a parse pass (`newNodes = []`, `newLinks = []`,
`existingIds = new Set()`, `angle = 0`). -/
def initState : ParseState := ⟨[], [], [], 0⟩

/-- `parseCode` of the source, on the line list of the document.  The
resulting `nodes` and `links` fields are the returned model; `existingIds`
and `steps` are the final values of the pass-local helper state. -/
def parseCode (doc : List (List Char)) : ParseState :=
  processLines 0 initState doc

/-- `updateCodePosition` of the source, below the node-id lookup: given the
node's `lineIndex` and the new position, rewrite the one line (remove a
coordinate match if present, trim trailing whitespace, append the canonical
suffix) and leave the document unchanged when the index is out of range. -/
def updateCodePosition (doc : List (List Char)) (lineIndex : Nat)
    (newX newY : ℚ) : List (List Char) :=
  if lineIndex < doc.length then
    let line := doc.getD lineIndex []
    let line₁ := if (findCoord line).isSome then stripCoord line else line
    let line₂ := trimEnd line₁
    let newLine :=
      line₂ ++ ' ' :: '(' :: (intDigits (jsRound newX) ++
        ',' :: ' ' :: (intDigits (jsRound newY) ++ [')']))
    doc.set lineIndex newLine
  else doc

/-- `updateCodePosition` specialized to integral inputs (a parsed node's
stored position is always integral, so the round trips of interest all go
through this form); `updateCodePosition_intCast` below identifies it with the
rational-input original. -/
def updateCodePositionInt (doc : List (List Char)) (lineIndex : Nat)
    (newX newY : Int) : List (List Char) :=
  if lineIndex < doc.length then
    let line := doc.getD lineIndex []
    let line₁ := if (findCoord line).isSome then stripCoord line else line
    let line₂ := trimEnd line₁
    let newLine :=
      line₂ ++ ' ' :: '(' :: (intDigits newX ++
        ',' :: ' ' :: (intDigits newY ++ [')']))
    doc.set lineIndex newLine
  else doc

/-- The line written by the serializer for position `(x, y)` over the original
line `l` (the body of the in-range branch of `updateCodePosition`). -/
def wbLine (l : List Char) (x y : Int) : List Char :=
  trimEnd (if (findCoord l).isSome then stripCoord l else l) ++
    ' ' :: '(' :: (intDigits x ++ ',' :: ' ' :: (intDigits y ++ [')']))

/-- The four attribute kinds. -/
def isAttType : NodeType → Bool
  | .attribute => true
  | .key_attribute => true
  | .multivalued_attribute => true
  | .derived_attribute => true
  | _ => false

/-- Source token of a `link` statement (`parts[1]`). -/
def linkSource (l : List Char) : Option (List Char) := (partsOf l).get? 1

/-- Target token of a `link` statement (`parts[2]`). -/
def linkTarget (l : List Char) : Option (List Char) := (partsOf l).get? 2

/-- Quoted label of a `link` statement (empty when no quoted text matches). -/
def linkLabel (l : List Char) : List Char := (findQuoted (strippedOf l)).getD []

/-- Style of a `link` statement: `double` exactly when `[total]` or
`[double]` occurs as a substring of the coordinate-stripped line. -/
def linkStyle (l : List Char) : LinkStyle :=
  if containsSub totalTok (strippedOf l) ∨ containsSub doubleTok (strippedOf l) then
    .double
  else .solid

/-- The link record a well-formed `link` statement contributes. -/
def linkOf (l : List Char) : LinkData :=
  ⟨linkSource l, linkTarget l, linkLabel l, linkStyle l⟩

/-- Character list of a string literal (used for concrete test documents). -/
def str (s : String) : List Char := s.toList

/-! ### Digit strings -/

lemma natDigitsAux_congr : ∀ (f₁ f₂ n : Nat), n < f₁ → n < f₂ →
    natDigitsAux f₁ n = natDigitsAux f₂ n := by
  intro f₁
  induction f₁ with
  | zero => intro f₂ n h₁ _; omega
  | succ f ih =>
    intro f₂ n h₁ h₂
    cases f₂ with
    | zero => omega
    | succ g =>
      simp only [natDigitsAux]
      by_cases h10 : n < 10
      · simp [h10]
      · have hd : n / 10 < n := Nat.div_lt_self (by omega) (by omega)
        simp only [if_neg h10]
        rw [ih g (n / 10) (by omega) (by omega)]

/-- One-step unfolding of `natDigits`. -/
lemma natDigits_eq (n : Nat) :
    natDigits n =
      if n < 10 then [digitChar n] else natDigits (n / 10) ++ [digitChar (n % 10)] := by
  show natDigitsAux (n + 1) n = _
  rw [natDigitsAux]
  by_cases h10 : n < 10
  · simp [h10]
  · have hd : n / 10 < n := Nat.div_lt_self (by omega) (by omega)
    simp only [if_neg h10]
    rw [natDigitsAux_congr n (n / 10 + 1) (n / 10) (by omega) (by omega)]
    rfl

lemma digitChar_isDigit {n : Nat} (h : n < 10) : (digitChar n).isDigit = true := by
  interval_cases n <;> decide

lemma digitChar_toNat {n : Nat} (h : n < 10) : (digitChar n).toNat - 48 = n := by
  interval_cases n <;> decide

lemma natDigits_ne_nil (n : Nat) : natDigits n ≠ [] := by
  rw [natDigits_eq]; split <;> simp

lemma natDigits_isDigit (n : Nat) : ∀ c ∈ natDigits n, c.isDigit = true := by
  induction n using Nat.strong_induction_on with
  | _ n ih =>
    rw [natDigits_eq]
    by_cases h10 : n < 10
    · simp only [if_pos h10, List.mem_singleton]
      rintro c rfl
      exact digitChar_isDigit h10
    · have hd : n / 10 < n := Nat.div_lt_self (by omega) (by omega)
      simp only [if_neg h10, List.mem_append, List.mem_singleton]
      rintro c (hc | rfl)
      · exact ih (n / 10) hd c hc
      · exact digitChar_isDigit (by omega)

lemma digitsVal_snoc (xs : List Char) (c : Char) :
    digitsVal (xs ++ [c]) = 10 * digitsVal xs + (c.toNat - 48) := by
  simp [digitsVal, List.foldl_append]

lemma digitsVal_natDigits (n : Nat) : digitsVal (natDigits n) = n := by
  induction n using Nat.strong_induction_on with
  | _ n ih =>
    rw [natDigits_eq]
    by_cases h10 : n < 10
    · simp only [if_pos h10]
      show digitsVal ([] ++ [digitChar n]) = n
      rw [digitsVal_snoc, digitChar_toNat h10]
      simp [digitsVal]
    · have hd : n / 10 < n := Nat.div_lt_self (by omega) (by omega)
      simp only [if_neg h10]
      rw [digitsVal_snoc, ih (n / 10) hd, digitChar_toNat (Nat.mod_lt n (by omega))]
      omega

lemma natDigits_injective {m n : Nat} (h : natDigits m = natDigits n) : m = n := by
  have := digitsVal_natDigits m
  rw [h, digitsVal_natDigits] at this
  omega

lemma isDigit_ne_underscore {c : Char} (h : c.isDigit = true) : c ≠ '_' := by
  rintro rfl
  exact absurd h (by decide)

lemma natDigits_ne_underscore (n : Nat) : ∀ c ∈ natDigits n, c ≠ '_' :=
  fun c hc => isDigit_ne_underscore (natDigits_isDigit n c hc)

lemma ws_not_digit {c : Char} (h : isWsChar c = true) : c.isDigit = false := by
  simp only [isWsChar, Bool.or_eq_true, decide_eq_true_eq] at h
  rcases h with ((((rfl | rfl) | rfl) | rfl) | rfl) | rfl <;> decide

lemma digit_not_ws {c : Char} (h : c.isDigit = true) : isWsChar c = false := by
  cases hw : isWsChar c
  · rfl
  · rw [ws_not_digit hw] at h
    exact absurd h (by decide)

/-- Splitting a list at a separator character absent from the two left parts
is unambiguous. -/
lemma append_sep_inj (sep : Char) : ∀ (a b d e : List Char),
    (∀ c ∈ a, c ≠ sep) → (∀ c ∈ b, c ≠ sep) →
    a ++ sep :: d = b ++ sep :: e → a = b ∧ d = e := by
  intro a
  induction a with
  | nil =>
    intro b d e _ hb heq
    cases b with
    | nil => simpa using heq
    | cons c b' =>
      simp only [List.nil_append, List.cons_append, List.cons.injEq] at heq
      exact absurd heq.1.symm (hb c (by simp))
  | cons c a' ih =>
    intro b d e ha hb heq
    cases b with
    | nil =>
      simp only [List.cons_append, List.nil_append, List.cons.injEq] at heq
      exact absurd heq.1 (ha c (by simp))
    | cons c' b' =>
      simp only [List.cons_append, List.cons.injEq] at heq
      obtain ⟨rfl, heq⟩ := heq
      obtain ⟨h₁, h₂⟩ := ih b' d e (fun x hx => ha x (by simp [hx]))
        (fun x hx => hb x (by simp [hx])) heq
      exact ⟨by rw [h₁], h₂⟩

/-- Two strings of the shape `label ++ "_" ++ digits‐of‐index` coincide only
when the indices coincide, whatever the labels are (the index digits contain
no underscore, so they are the text after the last underscore). -/
lemma label_underscore_index_inj {a b : List Char} {i j : Nat}
    (h : a ++ '_' :: natDigits i = b ++ '_' :: natDigits j) : i = j := by
  have hrev := congrArg List.reverse h
  simp only [List.reverse_append, List.reverse_cons] at hrev
  have hrev' : (natDigits i).reverse ++ '_' :: a.reverse =
      (natDigits j).reverse ++ '_' :: b.reverse := by
    simpa [List.append_assoc] using hrev
  have := append_sep_inj '_' (natDigits i).reverse (natDigits j).reverse
    a.reverse b.reverse
    (fun c hc => natDigits_ne_underscore i c (List.mem_reverse.mp hc))
    (fun c hc => natDigits_ne_underscore j c (List.mem_reverse.mp hc)) hrev'
  exact natDigits_injective (List.reverse_injective this.1)

/-! ### Trimming -/

lemma trimEnd_cons (c : Char) (cs : List Char) :
    trimEnd (c :: cs) =
      if trimEnd cs = [] then (if isWsChar c then [] else [c]) else c :: trimEnd cs := rfl

lemma trimEnd_eq_nil_iff {cs : List Char} :
    trimEnd cs = [] ↔ ∀ c ∈ cs, isWsChar c = true := by
  induction cs with
  | nil => simp [trimEnd]
  | cons c cs ih =>
    rw [trimEnd_cons]
    constructor
    · intro h x hx
      by_cases hnil : trimEnd cs = []
      · rw [if_pos hnil] at h
        by_cases hw : isWsChar c
        · rcases List.mem_cons.mp hx with rfl | hx
          · exact hw
          · exact ih.mp hnil x hx
        · rw [if_neg hw] at h
          exact absurd h (by simp)
      · rw [if_neg hnil] at h
        exact absurd h (by simp)
    · intro hall
      have hc : isWsChar c = true := hall c (by simp)
      have hcs : trimEnd cs = [] := ih.mpr fun x hx => hall x (List.mem_cons_of_mem c hx)
      rw [if_pos hcs, if_pos hc]

lemma trimStart_eq_nil_iff {cs : List Char} :
    trimStart cs = [] ↔ ∀ c ∈ cs, isWsChar c = true :=
  List.dropWhile_eq_nil_iff

lemma trimEnd_append_ws {w : List Char} (a : List Char)
    (hw : ∀ c ∈ w, isWsChar c = true) : trimEnd (a ++ w) = trimEnd a := by
  induction a with
  | nil =>
    simp only [List.nil_append]
    exact trimEnd_eq_nil_iff.mpr hw
  | cons c a ih => rw [List.cons_append, trimEnd_cons, trimEnd_cons, ih]

lemma trimEnd_append_keep {b : List Char} (a : List Char)
    (hb : trimEnd b = b) (hne : b ≠ []) : trimEnd (a ++ b) = a ++ b := by
  induction a with
  | nil => simpa using hb
  | cons c a ih =>
    rw [List.cons_append, trimEnd_cons, ih, if_neg (by simp [hne])]

lemma trimEnd_snoc_nonws {c : Char} (a : List Char) (h : isWsChar c = false) :
    trimEnd (a ++ [c]) = a ++ [c] :=
  trimEnd_append_keep a (by rw [trimEnd_cons]; simp [trimEnd, h]) (by simp)

lemma trimEnd_idem (s : List Char) : trimEnd (trimEnd s) = trimEnd s := by
  induction s with
  | nil => rfl
  | cons c s ih =>
    rw [trimEnd_cons]
    by_cases h : trimEnd s = []
    · rw [if_pos h]
      by_cases hw : isWsChar c
      · rw [if_pos hw]
        rfl
      · rw [if_neg hw, trimEnd_cons]
        simp [trimEnd, hw]
    · rw [if_neg h, trimEnd_cons, ih, if_neg h]

lemma trimStart_cons (c : Char) (cs : List Char) :
    trimStart (c :: cs) = if isWsChar c then trimStart cs else c :: cs := by
  by_cases hw : isWsChar c
  · simp [trimStart, List.dropWhile_cons, hw]
  · simp [trimStart, List.dropWhile_cons, hw]

lemma trimStart_idem (s : List Char) : trimStart (trimStart s) = trimStart s := by
  induction s with
  | nil => rfl
  | cons c s ih =>
    rw [trimStart_cons]
    by_cases hw : isWsChar c
    · simpa [hw] using ih
    · simp [trimStart_cons, hw]

lemma trim_comm (s : List Char) : trimEnd (trimStart s) = trimStart (trimEnd s) := by
  induction s with
  | nil => rfl
  | cons c s ih =>
    by_cases hw : isWsChar c
    · rw [trimStart_cons, if_pos hw, ih, trimEnd_cons]
      by_cases h : trimEnd s = []
      · rw [if_pos h, if_pos hw, h]
      · rw [if_neg h, trimStart_cons, if_pos hw]
    · rw [trimStart_cons, if_neg hw, trimEnd_cons]
      by_cases h : trimEnd s = []
      · rw [if_pos h, if_neg hw, trimStart_cons, if_neg hw]
      · rw [if_neg h, trimStart_cons, if_neg hw]

lemma trimStart_trim (s : List Char) : trimStart (trim s) = trim s := by
  rw [trim, trim_comm, trimStart_idem]

lemma trimEnd_trim (s : List Char) : trimEnd (trim s) = trim s := by
  rw [trim, trimEnd_idem]

lemma trimStart_head {s t : List Char} {c : Char} (h : trimStart s = c :: t) :
    isWsChar c = false := by
  induction s with
  | nil => exact absurd h (by simp [trimStart])
  | cons d s ih =>
    rw [trimStart_cons] at h
    by_cases hw : isWsChar d
    · exact ih (by rwa [if_pos hw] at h)
    · rw [if_neg hw] at h
      cases h
      cases hx : isWsChar c
      · rfl
      · exact absurd hx (by simp [hw])

lemma trimStart_append_of_ne_nil {a : List Char} (b : List Char)
    (h : trimStart a ≠ []) : trimStart (a ++ b) = trimStart a ++ b := by
  simp only [trimStart] at h ⊢
  rw [List.dropWhile_append, if_neg (by simpa using h)]

lemma trimEnd_decomp (s : List Char) :
    ∃ w, (∀ c ∈ w, isWsChar c = true) ∧ s = trimEnd s ++ w := by
  induction s with
  | nil => exact ⟨[], by simp, rfl⟩
  | cons c s ih =>
    rw [trimEnd_cons]
    by_cases h : trimEnd s = []
    · have hall := trimEnd_eq_nil_iff.mp h
      by_cases hwc : isWsChar c
      · refine ⟨c :: s, ?_, by rw [if_pos h, if_pos hwc]; rfl⟩
        intro x hx
        rcases List.mem_cons.mp hx with rfl | hx
        · exact hwc
        · exact hall x hx
      · exact ⟨s, hall, by rw [if_pos h, if_neg hwc]; rfl⟩
    · obtain ⟨w, hw, hs⟩ := ih
      refine ⟨w, hw, ?_⟩
      rw [if_neg h, List.cons_append]
      exact congrArg (c :: ·) hs

lemma trim_decomp (s : List Char) :
    ∃ w₁ w₂, (∀ c ∈ w₁, isWsChar c = true) ∧ (∀ c ∈ w₂, isWsChar c = true) ∧
      s = w₁ ++ trim s ++ w₂ := by
  obtain ⟨w₂, hw₂, hs⟩ := trimEnd_decomp (trimStart s)
  refine ⟨s.takeWhile isWsChar, w₂, fun c hc => List.mem_takeWhile_imp hc, hw₂, ?_⟩
  conv_lhs => rw [← List.takeWhile_append_dropWhile isWsChar s]
  rw [List.append_assoc]
  exact congrArg (s.takeWhile isWsChar ++ ·) hs

lemma trimStart_ws_append {w : List Char} (u : List Char)
    (hw : ∀ c ∈ w, isWsChar c = true) : trimStart (w ++ u) = trimStart u := by
  simp only [trimStart]
  rw [List.dropWhile_append,
    if_pos (by simp [List.dropWhile_eq_nil_iff.mpr hw])]

lemma ws_of_mem_of_trimStart_nil {z : List Char} (hz : trimStart z = [])
    {c : Char} (hc : c ∈ z) : isWsChar c = true := by
  have hz' : z.dropWhile isWsChar = [] := hz
  exact List.dropWhile_eq_nil_iff.mp hz' c hc

lemma trim_ws_affix {w₁ w₂ : List Char} (z : List Char)
    (h₁ : ∀ c ∈ w₁, isWsChar c = true) (h₂ : ∀ c ∈ w₂, isWsChar c = true) :
    trim (w₁ ++ z ++ w₂) = trim z := by
  rw [trim, List.append_assoc, trimStart_ws_append _ h₁]
  by_cases hz : trimStart z = []
  · rw [trimStart_ws_append _ (fun c hc => ws_of_mem_of_trimStart_nil hz hc),
      trimStart_eq_nil_iff.mpr h₂, trim, hz]
  · rw [trimStart_append_of_ne_nil _ hz, trimEnd_append_ws _ h₂, trim]

/-! ### The coordinate matcher -/

lemma ws_char_cases {c : Char} (h : isWsChar c = true) :
    c = ' ' ∨ c = '\t' ∨ c = '\n' ∨ c = '\r' ∨ c = '\x0b' ∨ c = '\x0c' := by
  simp only [isWsChar, Bool.or_eq_true, decide_eq_true_eq] at h
  tauto

lemma ws_ne_lparen {c : Char} (h : isWsChar c = true) : c ≠ '(' := by
  rcases ws_char_cases h with rfl | rfl | rfl | rfl | rfl | rfl <;> decide

lemma ws_ne_minus {c : Char} (h : isWsChar c = true) : c ≠ '-' := by
  rcases ws_char_cases h with rfl | rfl | rfl | rfl | rfl | rfl <;> decide

lemma ws_ne_comma {c : Char} (h : isWsChar c = true) : c ≠ ',' := by
  rcases ws_char_cases h with rfl | rfl | rfl | rfl | rfl | rfl <;> decide

lemma ws_ne_rparen {c : Char} (h : isWsChar c = true) : c ≠ ')' := by
  rcases ws_char_cases h with rfl | rfl | rfl | rfl | rfl | rfl <;> decide

lemma digit_ne_minus {c : Char} (h : c.isDigit = true) : c ≠ '-' := by
  rintro rfl
  exact absurd h (by decide)

lemma signedIntP_nil : signedIntP [] = none := by decide

lemma coordHere_nil : coordHere [] = none := rfl

lemma coordHere_cons_ne {c : Char} {cs : List Char} (h : c ≠ '(') :
    coordHere (c :: cs) = none := by
  simp [coordHere, h]

/-- `takeWhile`/`dropWhile` on digits distribute over an append whose right
part does not start with a digit. -/
lemma digitsP_append (a b : List Char) (hb : (b.headD ' ').isDigit = false) :
    digitsP (a ++ b) = (digitsP a).map (fun p => (p.1, p.2 ++ b)) := by
  have htwb : b.takeWhile Char.isDigit = [] := by
    cases b with
    | nil => rfl
    | cons c b' => simp [List.takeWhile_cons, List.headD] at hb ⊢; simp [hb]
  have hdwb : b.dropWhile Char.isDigit = b := by
    cases b with
    | nil => rfl
    | cons c b' => simp [List.dropWhile_cons, List.headD] at hb ⊢; simp [hb]
  have htw : (a ++ b).takeWhile Char.isDigit = a.takeWhile Char.isDigit := by
    rw [List.takeWhile_append]
    split
    · rename_i hlen
      have ha : a.takeWhile Char.isDigit = a :=
        (List.takeWhile_sublist _).eq_of_length hlen
      rw [htwb, List.append_nil, ha]
    · rfl
  have hdw : (a ++ b).dropWhile Char.isDigit = a.dropWhile Char.isDigit ++ b := by
    rw [List.dropWhile_append]
    split
    · rename_i hnil
      simp only [List.isEmpty_iff] at hnil
      rw [hnil, hdwb, List.nil_append]
    · rfl
  rw [digitsP, digitsP, htw, hdw]
  by_cases h : a.takeWhile Char.isDigit = []
  · simp [h]
  · simp [h]

lemma signedIntP_append (a b : List Char) (hd : (b.headD ' ').isDigit = false)
    (hm : b.headD ' ' ≠ '-') :
    signedIntP (a ++ b) = (signedIntP a).map (fun p => (p.1, p.2 ++ b)) := by
  cases a with
  | nil =>
    rw [List.nil_append, signedIntP_nil]
    cases b with
    | nil => exact signedIntP_nil
    | cons c b' =>
      simp only [List.headD_cons] at hd hm
      rw [signedIntP]
      simp only [List.headD_cons]
      rw [if_neg hm]
      simp [digitsP, List.takeWhile_cons, hd]
  | cons c a' =>
    rw [List.cons_append, signedIntP, signedIntP]
    simp only [List.headD_cons]
    by_cases hc : c = '-'
    · rw [if_pos hc, if_pos hc]
      simp only [List.tail_cons]
      rw [digitsP_append a' b hd, Option.map_map, Option.map_map]
      rfl
    · rw [if_neg hc, if_neg hc, ← List.cons_append, digitsP_append (c :: a') b hd,
        Option.map_map, Option.map_map]
      rfl

lemma wsInt_append (u b : List Char) (hd : (b.headD ' ').isDigit = false)
    (hm : b.headD ' ' ≠ '-') (hb0 : signedIntP (b.dropWhile isWsChar) = none) :
    wsInt (u ++ b) = (wsInt u).map (fun p => (p.1, p.2 ++ b)) := by
  rw [wsInt, wsInt, List.dropWhile_append]
  split
  · rename_i hnil
    simp only [List.isEmpty_iff] at hnil
    rw [hnil, signedIntP_nil, hb0]
    rfl
  · rename_i hnil
    simp only [List.isEmpty_iff] at hnil
    exact signedIntP_append _ b hd hm

/-- Master transfer lemma for `coordHere` under an append: when the appended
text `b` can neither start a new match component nor complete a pending one,
appending it changes only the residual text of a successful match. -/
lemma coordHere_append (u b : List Char)
    (hcb : coordHere b = none)
    (hd : (b.headD ' ').isDigit = false)
    (hm : b.headD ' ' ≠ '-')
    (hc : b.headD ' ' ≠ ',')
    (hb0 : signedIntP (b.dropWhile isWsChar) = none)
    (hp : (b.dropWhile isWsChar).headD ' ' ≠ ')') :
    coordHere (u ++ b) = (coordHere u).map (fun r => (r.1, r.2.1, r.2.2 ++ b)) := by
  cases u with
  | nil => simp [coordHere_nil, hcb]
  | cons c u₁ =>
    rw [List.cons_append, coordHere, coordHere]
    by_cases hcp : c = '('
    · rw [if_pos hcp, if_pos hcp, wsInt_append u₁ b hd hm hb0]
      cases h₁ : wsInt u₁ with
      | none => rfl
      | some p₁ =>
        obtain ⟨x, cs₂⟩ := p₁
        simp only [Option.map_some']
        cases cs₂ with
        | nil =>
          simp only [List.nil_append]
          cases b with
          | nil => rfl
          | cons cb b' =>
            simp only [List.headD_cons] at hc
            simp [hc]
        | cons c₂ cs₃ =>
          simp only [List.cons_append]
          by_cases hc₂ : c₂ = ','
          · rw [if_pos hc₂, if_pos hc₂, wsInt_append cs₃ b hd hm hb0]
            cases h₂ : wsInt cs₃ with
            | none => rfl
            | some p₂ =>
              obtain ⟨y, cs₄⟩ := p₂
              simp only [Option.map_some']
              rw [List.dropWhile_append]
              by_cases hnil : cs₄.dropWhile isWsChar = []
              · rw [if_pos (by simp [hnil]), hnil]
                cases hb : b.dropWhile isWsChar with
                | nil => rfl
                | cons c₅ b₅ =>
                  rw [hb] at hp
                  simp only [List.headD_cons] at hp
                  simp [hp]
              · rw [if_neg (by simpa using hnil)]
                cases hcs₄ : cs₄.dropWhile isWsChar with
                | nil => exact absurd hcs₄ hnil
                | cons c₅ cs₅ =>
                  simp only [List.cons_append]
                  by_cases hc₅ : c₅ = ')'
                  · simp [hc₅]
                  · simp [hc₅]
          · rw [if_neg hc₂, if_neg hc₂]
            rfl
    · rw [if_neg hcp, if_neg hcp]
      rfl

/-- The two shapes of appended text used below satisfy the hypotheses of
`coordHere_append`: text starting with a space and an opening parenthesis. -/
lemma coordHere_append_junction (u v : List Char) :
    coordHere (u ++ ' ' :: '(' :: v) =
      (coordHere u).map (fun r => (r.1, r.2.1, r.2.2 ++ ' ' :: '(' :: v)) := by
  have hws : isWsChar ' ' = true := by decide
  have hnp : isWsChar '(' = false := by decide
  have hpd : ('(').isDigit = false := by decide
  have hdrop : (' ' :: '(' :: v).dropWhile isWsChar = '(' :: v := by
    simp [List.dropWhile_cons, hws, hnp]
  refine coordHere_append u _ ?_ ?_ ?_ ?_ ?_ ?_
  · exact coordHere_cons_ne (by decide)
  · simp only [List.headD_cons]
    decide
  · simp only [List.headD_cons]
    decide
  · simp only [List.headD_cons]
    decide
  · rw [hdrop, signedIntP]
    simp only [List.headD_cons]
    rw [if_neg (by decide)]
    simp [digitsP, List.takeWhile_cons, hpd]
  · rw [hdrop]
    simp only [List.headD_cons]
    decide

/-- ... and whitespace-only text. -/
lemma coordHere_append_ws (u w : List Char) (hw : ∀ c ∈ w, isWsChar c = true) :
    coordHere (u ++ w) = (coordHere u).map (fun r => (r.1, r.2.1, r.2.2 ++ w)) := by
  have hdw : w.dropWhile isWsChar = [] := List.dropWhile_eq_nil_iff.mpr hw
  refine coordHere_append u w ?_ ?_ ?_ ?_ ?_ ?_
  · cases w with
    | nil => rfl
    | cons c w' => exact coordHere_cons_ne (ws_ne_lparen (hw c (by simp)))
  · cases w with
    | nil => decide
    | cons c w' =>
      simp only [List.headD_cons]
      exact ws_not_digit (hw c (by simp))
  · cases w with
    | nil => decide
    | cons c w' =>
      simp only [List.headD_cons]
      exact ws_ne_minus (hw c (by simp))
  · cases w with
    | nil => decide
    | cons c w' =>
      simp only [List.headD_cons]
      exact ws_ne_comma (hw c (by simp))
  · rw [hdw]
    exact signedIntP_nil
  · rw [hdw]
    decide

/-! ### Scanning for the leftmost match -/

lemma findCoord_cons_inv {c : Char} {cs : List Char}
    (h : findCoord (c :: cs) = none) :
    coordHere (c :: cs) = none ∧ findCoord cs = none := by
  rw [findCoord] at h
  cases h₁ : coordHere (c :: cs) with
  | some r =>
    obtain ⟨x, y, rest⟩ := r
    rw [h₁] at h
    exact absurd h (by simp)
  | none =>
    rw [h₁] at h
    cases h₂ : findCoord cs with
    | some m =>
      rw [h₂] at h
      exact absurd h (by simp)
    | none => exact ⟨rfl, rfl⟩

lemma coordHere_of_findCoord_none {t u : List Char} (h : findCoord t = none)
    (hu : u <:+ t) : coordHere u = none := by
  induction t with
  | nil =>
    rw [List.suffix_nil.mp hu]
    exact coordHere_nil
  | cons c t' ih =>
    obtain ⟨h₁, h₂⟩ := findCoord_cons_inv h
    rcases List.suffix_cons_iff.mp hu with rfl | hu'
    · exact h₁
    · exact ih h₂ hu'

lemma findCoord_all_ws {w : List Char} (hw : ∀ c ∈ w, isWsChar c = true) :
    findCoord w = none := by
  induction w with
  | nil => rfl
  | cons c w' ih =>
    rw [findCoord, coordHere_cons_ne (ws_ne_lparen (hw c (by simp))),
      ih (fun x hx => hw x (List.mem_cons_of_mem c hx))]

lemma findCoord_ws_prepend {w : List Char} (t : List Char)
    (hw : ∀ c ∈ w, isWsChar c = true) :
    findCoord (w ++ t) =
      (findCoord t).map (fun m => ⟨w ++ m.pre, m.x, m.y, m.rest⟩) := by
  induction w with
  | nil =>
    rw [List.nil_append]
    cases findCoord t with
    | none => rfl
    | some m => simp
  | cons c w' ih =>
    rw [List.cons_append, findCoord,
      coordHere_cons_ne (ws_ne_lparen (hw c (by simp))),
      ih (fun x hx => hw x (List.mem_cons_of_mem c hx))]
    cases findCoord t with
    | none => rfl
    | some m => simp

lemma findCoord_append_ws {w : List Char} (t : List Char)
    (hw : ∀ c ∈ w, isWsChar c = true) :
    findCoord (t ++ w) =
      (findCoord t).map (fun m => ⟨m.pre, m.x, m.y, m.rest ++ w⟩) := by
  induction t with
  | nil =>
    rw [List.nil_append, findCoord_all_ws hw]
    rfl
  | cons c t' ih =>
    rw [List.cons_append, findCoord, findCoord,
      show c :: (t' ++ w) = (c :: t') ++ w from rfl,
      coordHere_append_ws (c :: t') w hw]
    cases h₁ : coordHere (c :: t') with
    | some r =>
      obtain ⟨x, y, rest⟩ := r
      simp
    | none =>
      simp only [Option.map_none']
      rw [ih]
      cases findCoord t' with
      | none => rfl
      | some m => simp

lemma findCoord_append_of_none {t : List Char} (z : List Char)
    (h : ∀ u, u <:+ t → u ≠ [] → coordHere (u ++ z) = none) :
    findCoord (t ++ z) =
      (findCoord z).map (fun m => ⟨t ++ m.pre, m.x, m.y, m.rest⟩) := by
  induction t with
  | nil =>
    rw [List.nil_append]
    cases findCoord z with
    | none => rfl
    | some m => simp
  | cons c t' ih =>
    rw [List.cons_append, findCoord,
      show c :: (t' ++ z) = (c :: t') ++ z from rfl,
      h (c :: t') (by simp) (by simp),
      ih (fun u hu hne => h u (hu.trans (List.suffix_cons c t')) hne)]
    cases findCoord z with
    | none => rfl
    | some m => simp

lemma stripCoord_ws_affix {w₁ w₂ : List Char} (t : List Char)
    (h₁ : ∀ c ∈ w₁, isWsChar c = true) (h₂ : ∀ c ∈ w₂, isWsChar c = true) :
    stripCoord (w₁ ++ t ++ w₂) = w₁ ++ stripCoord t ++ w₂ := by
  rw [stripCoord, stripCoord, List.append_assoc, findCoord_ws_prepend _ h₁,
    findCoord_append_ws t h₂]
  cases findCoord t with
  | none => simp
  | some m => simp

/-- The first coordinate match is insensitive to trimming the line. -/
lemma trim_stripCoord (l : List Char) :
    trim (stripCoord l) = trim (stripCoord (trim l)) := by
  obtain ⟨w₁, w₂, h₁, h₂, hl⟩ := trim_decomp l
  conv_lhs => rw [hl]
  rw [stripCoord_ws_affix _ h₁ h₂, trim_ws_affix _ h₁ h₂]

/-! ### Parsing the canonical write-back suffix -/

lemma digitsP_self (n : Nat) : digitsP (natDigits n) = some (n, []) := by
  have hall : ∀ c ∈ natDigits n, Char.isDigit c = true := natDigits_isDigit n
  rw [digitsP]
  simp only [List.takeWhile_eq_self_iff.mpr hall,
    List.dropWhile_eq_nil_iff.mpr hall]
  rw [if_neg (natDigits_ne_nil n), digitsVal_natDigits]

lemma digitsP_natDigits (n : Nat) (t : List Char)
    (ht : (t.headD ' ').isDigit = false) :
    digitsP (natDigits n ++ t) = some (n, t) := by
  rw [digitsP_append _ _ ht, digitsP_self]
  simp

lemma natDigits_head_digit (n : Nat) :
    ((natDigits n).headD ' ').isDigit = true := by
  cases hnd : natDigits n with
  | nil => exact absurd hnd (natDigits_ne_nil n)
  | cons c r =>
    simp only [List.headD_cons]
    exact natDigits_isDigit n c (by rw [hnd]; simp)

lemma signedIntP_intDigits (x : Int) (t : List Char)
    (ht : (t.headD ' ').isDigit = false) :
    signedIntP (intDigits x ++ t) = some (x, t) := by
  rw [intDigits]
  by_cases hx : x < 0
  · rw [if_pos hx, List.cons_append, signedIntP]
    simp only [List.headD_cons, List.tail_cons, if_pos rfl]
    rw [digitsP_natDigits _ _ ht]
    simp only [Option.map_some']
    have : -((x.natAbs : Nat) : Int) = x := by omega
    rw [this]
    simp only [if_true]
  · rw [if_neg hx, signedIntP]
    have hd : ((natDigits x.toNat ++ t).headD ' ') = (natDigits x.toNat).headD ' ' := by
      cases hnd : natDigits x.toNat with
      | nil => exact absurd hnd (natDigits_ne_nil _)
      | cons c r => simp
    rw [if_neg (by rw [hd]; exact digit_ne_minus (natDigits_head_digit x.toNat)),
      digitsP_natDigits _ _ ht]
    simp only [Option.map_some']
    have : ((x.toNat : Nat) : Int) = x := by omega
    rw [this]

lemma intDigits_head_not_ws (x : Int) (t : List Char) :
    isWsChar ((intDigits x ++ t).headD ' ') = false := by
  rw [intDigits]
  by_cases hx : x < 0
  · rw [if_pos hx]
    simp only [List.cons_append, List.headD_cons]
    decide
  · rw [if_neg hx]
    cases hnd : natDigits x.toNat with
    | nil => exact absurd hnd (natDigits_ne_nil _)
    | cons c r =>
      simp only [List.cons_append, List.headD_cons]
      exact digit_not_ws (natDigits_isDigit _ c (by rw [hnd]; simp))

lemma wsInt_intDigits (x : Int) (t : List Char)
    (ht : (t.headD ' ').isDigit = false) :
    wsInt (intDigits x ++ t) = some (x, t) := by
  rw [wsInt]
  have hne : intDigits x ++ t ≠ [] := by
    rw [intDigits]
    by_cases hx : x < 0
    · simp [hx]
    · simp [hx, natDigits_ne_nil]
  cases hcase : intDigits x ++ t with
  | nil => exact absurd hcase hne
  | cons c r =>
    have hhead : isWsChar c = false := by
      have := intDigits_head_not_ws x t
      rwa [hcase, List.headD_cons] at this
    rw [List.dropWhile_cons, hhead]
    simp only [Bool.false_eq_true, if_false]
    rw [← hcase, signedIntP_intDigits x t ht]

/-- The canonical suffix written by the serializer parses back to exactly the
written pair. -/
lemma coordHere_wb (x y : Int) :
    coordHere ('(' :: (intDigits x ++
        ',' :: ' ' :: (intDigits y ++ [')']))) = some (x, y, []) := by
  have h₁ : wsInt (intDigits x ++ ',' :: ' ' :: (intDigits y ++ [')'])) =
      some (x, ',' :: ' ' :: (intDigits y ++ [')'])) :=
    wsInt_intDigits x _ (by simp only [List.headD_cons]; decide)
  have hdw : List.dropWhile isWsChar (intDigits y ++ [')']) = intDigits y ++ [')'] := by
    cases hcase : intDigits y ++ [')'] with
    | nil =>
      have : intDigits y ++ [')'] ≠ [] := by simp
      exact absurd hcase this
    | cons c r =>
      have hhead : isWsChar c = false := by
        have := intDigits_head_not_ws y [')']
        rwa [hcase, List.headD_cons] at this
      rw [List.dropWhile_cons, hhead]
      simp
  have h₂ : wsInt (' ' :: (intDigits y ++ [')'])) = some (y, [')']) := by
    rw [wsInt, List.dropWhile_cons]
    simp only [show isWsChar ' ' = true from rfl, if_true]
    rw [hdw]
    exact signedIntP_intDigits y [')'] (by decide)
  have h₃ : List.dropWhile isWsChar [')'] = [')'] := by decide
  simp only [coordHere, if_pos rfl, h₁, h₂, h₃, if_true]

/-- Parsing the rewritten line: past a prefix with no coordinate occurrence,
the appended canonical suffix is the leftmost match. -/
lemma findCoord_wb_line {T : List Char} (x y : Int) (hT : findCoord T = none) :
    findCoord (T ++ ' ' :: '(' :: (intDigits x ++
        ',' :: ' ' :: (intDigits y ++ [')']))) =
      some ⟨T ++ [' '], x, y, []⟩ := by
  rw [findCoord_append_of_none _ (fun u hu hne => by
    rw [coordHere_append_junction u _, coordHere_of_findCoord_none hT hu]
    rfl)]
  rw [findCoord, coordHere_cons_ne (by decide), findCoord, coordHere_wb x y]
  rfl

/-! ### Structure of one parsing step -/

lemma stripCoord_of_none {cs : List Char} (h : findCoord cs = none) :
    stripCoord cs = cs := by
  rw [stripCoord, h]

lemma findCoord_trim_none {X : List Char} (h : findCoord X = none) :
    findCoord (trim X) = none := by
  obtain ⟨w₁, w₂, h₁, h₂, hX⟩ := trim_decomp X
  rw [hX, List.append_assoc, findCoord_ws_prepend _ h₁, findCoord_append_ws _ h₂] at h
  cases hf : findCoord (trim X) with
  | none => rfl
  | some m =>
    rw [hf] at h
    exact absurd h (by simp)

lemma nodeBranch_nodes (i : Nat) (st : ParseState) (xy : Option (Int × Int))
    (parts : List (List Char)) (command : List Char) :
    ∃ nd, (nodeBranch i st xy parts command).nodes = st.nodes ++ [nd] ∧
      nd.lineIndex = i ∧
      nd.x = (match xy with
        | some p => p.1
        | none => (getDefaultPos st.steps).1) ∧
      nd.y = (match xy with
        | some p => p.2
        | none => (getDefaultPos st.steps).2) := by
  refine ⟨_, rfl, rfl, ?_, ?_⟩ <;> cases xy <;> rfl

lemma specBranch_nodes (i : Nat) (st : ParseState) (xy : Option (Int × Int))
    (parts : List (List Char)) (command : List Char) :
    ∃ nd, (specBranch i st xy parts command).nodes = st.nodes ++ [nd] ∧
      nd.lineIndex = i ∧
      nd.x = (match xy with
        | some p => p.1
        | none => (getDefaultPos st.steps).1) ∧
      nd.y = (match xy with
        | some p => p.2
        | none => (getDefaultPos st.steps).2) := by
  refine ⟨_, rfl, rfl, ?_, ?_⟩ <;> cases xy <;> rfl

lemma linkBranch_nodes (st : ParseState) (parts : List (List Char))
    (lwc : List Char) : (linkBranch st parts lwc).nodes = st.nodes := by
  rw [linkBranch]
  split <;> rfl

lemma linkBranch_links (st : ParseState) (parts : List (List Char))
    (lwc : List Char) :
    (linkBranch st parts lwc).links =
      st.links ++
        (if jsTruthy (parts.get? 1) ∧ jsTruthy (parts.get? 2) then
          [⟨parts.get? 1, parts.get? 2, (findQuoted lwc).getD [],
            if containsSub totalTok lwc ∨ containsSub doubleTok lwc then
              .double else .solid⟩]
        else []) := by
  rw [linkBranch]
  split
  · rfl
  · simp_all

lemma processLine_of_clean_nil {l : List Char} (i : Nat) (st : ParseState)
    (h : cleanOf l = []) : processLine i st l = st := by
  rw [processLine, if_pos h]

lemma processLine_of_comment {l : List Char} (i : Nat) (st : ParseState)
    (h : isComment (cleanOf l) = true) : processLine i st l = st := by
  simp only [processLine]
  by_cases h0 : cleanOf l = []
  · rw [if_pos h0]
  · rw [if_neg h0, if_pos h]

/-- Unfolding of `processLine` on a non-skipped line. -/
lemma processLine_eq {l : List Char} (i : Nat) (st : ParseState)
    (h₁ : cleanOf l ≠ []) (h₂ : isComment (cleanOf l) = false) :
    processLine i st l =
      (if commandOf l ∈ nodeCommandTokens then
        nodeBranch i st ((findCoord (cleanOf l)).map (fun m => (m.x, m.y)))
          (partsOf l) (commandOf l)
      else if commandOf l = specTok ∨ commandOf l = unionTok then
        specBranch i st ((findCoord (cleanOf l)).map (fun m => (m.x, m.y)))
          (partsOf l) (commandOf l)
      else if commandOf l = linkTok then
        linkBranch st (partsOf l) (strippedOf l)
      else st) := by
  simp only [processLine]
  rw [if_neg h₁, if_neg (by rw [h₂]; exact Bool.false_ne_true)]

lemma processLine_of_unrecognized {l : List Char} (i : Nat) (st : ParseState)
    (h : commandOf l ∉ recognizedCommandTokens) : processLine i st l = st := by
  have hn : commandOf l ∉ nodeCommandTokens := fun hm =>
    h (by rw [recognizedCommandTokens]; exact List.mem_append_left _ hm)
  have hs : ¬(commandOf l = specTok ∨ commandOf l = unionTok) := by
    rintro (h' | h')
    · exact h (by rw [recognizedCommandTokens, h']; simp)
    · exact h (by rw [recognizedCommandTokens, h']; simp)
  have hl : commandOf l ≠ linkTok := fun hm =>
    h (by rw [recognizedCommandTokens, hm]; simp)
  by_cases h0 : cleanOf l = []
  · exact processLine_of_clean_nil i st h0
  · by_cases hcm : isComment (cleanOf l) = true
    · exact processLine_of_comment i st hcm
    · rw [processLine_eq i st h0 (by simpa using hcm), if_neg hn, if_neg hs, if_neg hl]

lemma processLine_nodes_shape (i : Nat) (st : ParseState) (l : List Char) :
    ∃ d, (processLine i st l).nodes = st.nodes ++ d := by
  simp only [processLine]
  split
  · exact ⟨[], by simp⟩
  · split
    · exact ⟨[], by simp⟩
    · split
      · obtain ⟨nd, hnd, -⟩ := nodeBranch_nodes i st _ (partsOf l) (commandOf l)
        exact ⟨[nd], hnd⟩
      · split
        · obtain ⟨nd, hnd, -⟩ := specBranch_nodes i st _ (partsOf l) (commandOf l)
          exact ⟨[nd], hnd⟩
        · split
          · exact ⟨[], by rw [linkBranch_nodes, List.append_nil]⟩
          · exact ⟨[], by simp⟩

lemma processLine_links_shape (i : Nat) (st : ParseState) (l : List Char) :
    ∃ d, (processLine i st l).links = st.links ++ d := by
  simp only [processLine]
  split
  · exact ⟨[], by simp⟩
  · split
    · exact ⟨[], by simp⟩
    · split
      · simp only [nodeBranch]
        split
        · exact ⟨_, rfl⟩
        · exact ⟨[], by simp⟩
      · split
        · simp only [specBranch]
          split
          · exact ⟨_, rfl⟩
          · exact ⟨[], by simp⟩
        · split
          · rw [linkBranch_links]
            exact ⟨_, rfl⟩
          · exact ⟨[], by simp⟩

/-! ### The parsing fold -/

lemma processLines_append (xs ys : List (List Char)) (i : Nat) (st : ParseState) :
    processLines i st (xs ++ ys) =
      processLines (i + xs.length) (processLines i st xs) ys := by
  induction xs generalizing i st with
  | nil => simp [processLines]
  | cons l xs ih =>
    rw [List.cons_append, processLines, ih, processLines]
    congr 1
    simp
    omega

lemma processLines_nodes_mono (ls : List (List Char)) (i : Nat) (st : ParseState) :
    ∃ d, (processLines i st ls).nodes = st.nodes ++ d := by
  induction ls generalizing i st with
  | nil => exact ⟨[], by simp [processLines]⟩
  | cons l ls ih =>
    rw [processLines]
    obtain ⟨d₁, h₁⟩ := processLine_nodes_shape i st l
    obtain ⟨d₂, h₂⟩ := ih (i + 1) (processLine i st l)
    exact ⟨d₁ ++ d₂, by rw [h₂, h₁, List.append_assoc]⟩

lemma processLines_links_mono (ls : List (List Char)) (i : Nat) (st : ParseState) :
    ∃ d, (processLines i st ls).links = st.links ++ d := by
  induction ls generalizing i st with
  | nil => exact ⟨[], by simp [processLines]⟩
  | cons l ls ih =>
    rw [processLines]
    obtain ⟨d₁, h₁⟩ := processLine_links_shape i st l
    obtain ⟨d₂, h₂⟩ := ih (i + 1) (processLine i st l)
    exact ⟨d₁ ++ d₂, by rw [h₂, h₁, List.append_assoc]⟩

lemma mem_nodes_processLines {n : NodeData} (ls : List (List Char)) (i : Nat)
    (st : ParseState) (h : n ∈ st.nodes) : n ∈ (processLines i st ls).nodes := by
  obtain ⟨d, hd⟩ := processLines_nodes_mono ls i st
  rw [hd]
  exact List.mem_append_left _ h

lemma mem_links_processLines {lk : LinkData} (ls : List (List Char)) (i : Nat)
    (st : ParseState) (h : lk ∈ st.links) : lk ∈ (processLines i st ls).links := by
  obtain ⟨d, hd⟩ := processLines_links_mono ls i st
  rw [hd]
  exact List.mem_append_left _ h

/-- Every node of the output either was already in the state or was produced
by the processing step of a unique line. -/
lemma processLines_node_origin {n : NodeData} :
    ∀ (ls : List (List Char)) (i : Nat) (st : ParseState),
      n ∈ (processLines i st ls).nodes →
      n ∈ st.nodes ∨ ∃ k, k < ls.length ∧
        n ∉ (processLines i st (ls.take k)).nodes ∧
        n ∈ (processLine (i + k) (processLines i st (ls.take k)) (ls.getD k [])).nodes := by
  intro ls
  induction ls with
  | nil =>
    intro i st h
    exact Or.inl h
  | cons l ls ih =>
    intro i st h
    rw [processLines] at h
    rcases ih (i + 1) (processLine i st l) h with hin | ⟨k, hk, hnot, hmem⟩
    · by_cases hst : n ∈ st.nodes
      · exact Or.inl hst
      · refine Or.inr ⟨0, by simp, ?_, ?_⟩
        · simpa [processLines] using hst
        · simpa [processLines] using hin
    · refine Or.inr ⟨k + 1, by simpa using hk, ?_, ?_⟩
      · simpa [List.take_succ_cons, processLines] using hnot
      · rw [List.take_succ_cons, List.getD_cons_succ]
        rw [show i + (k + 1) = (i + 1) + k by omega]
        simpa [processLines] using hmem

/-! ### Tokens and commands of a produced line -/

lemma splitWs_head_cons {c : Char} (t : List Char) (hc : isWsChar c = false) :
    ∃ r, (splitWs (c :: t)).headD [] = c :: r := by
  simp only [splitWs, List.foldr_cons]
  cases hacc : List.foldr splitWsStep [] t with
  | nil =>
    refine ⟨[], ?_⟩
    simp [splitWsStep, hc]
  | cons w ws =>
    refine ⟨w, ?_⟩
    simp only [splitWsStep, hc, Bool.false_eq_true, if_false]
    rw [List.filter_cons]
    simp

lemma head_not_ws_of_trimStart_self {c₀ : Char} {T' : List Char}
    (h : trimStart (c₀ :: T') = c₀ :: T') : isWsChar c₀ = false := by
  by_contra hw
  rw [trimStart_cons, if_pos (by revert hw; cases isWsChar c₀ <;> simp)] at h
  have hle : (trimStart T').length ≤ T'.length :=
    (List.dropWhile_sublist isWsChar).length_le
  have hlen := congrArg List.length h
  simp only [List.length_cons] at hlen
  omega

lemma commandOf_head {l : List Char} {c₀ : Char} {T' : List Char}
    (hT : strippedOf l = c₀ :: T') (hc : isWsChar c₀ = false) :
    ∃ r, commandOf l = Char.toLower c₀ :: r := by
  obtain ⟨r, hr⟩ := splitWs_head_cons T' hc
  refine ⟨r.map Char.toLower, ?_⟩
  rw [commandOf, partsOf, hT, hr]
  rfl

/-- A line whose command keyword declares a node (or a hierarchy) has a
nonempty stripped form that does not look like a comment. -/
lemma strippedOf_of_command {l : List Char}
    (hcmd : commandOf l ∈ nodeCommandTokens ∨
      commandOf l = specTok ∨ commandOf l = unionTok) :
    ∃ c₀ T', strippedOf l = c₀ :: T' ∧ isWsChar c₀ = false ∧ c₀ ≠ '/' := by
  have hcases : ∃ h₀ rest, commandOf l = h₀ :: rest ∧
      (h₀ = 'e' ∨ h₀ = 'w' ∨ h₀ = 'r' ∨ h₀ = 'i' ∨ h₀ = 'a' ∨ h₀ = 'k' ∨
        h₀ = 'd' ∨ h₀ = 'm' ∨ h₀ = 's' ∨ h₀ = 'u') := by
    rcases hcmd with hm | h' | h'
    · simp only [nodeCommandTokens, List.mem_cons, List.mem_singleton,
        List.not_mem_nil, or_false] at hm
      rcases hm with h' | h' | h' | h' | h' | h' | h' | h' <;>
        · rw [h']
          exact ⟨_, _, rfl, by simp [entTok, weakEntTok, relTok, identRelTok,
            attTok, keyAttTok, derivedAttTok, multiAttTok]⟩
    · rw [h']
      exact ⟨_, _, rfl, by simp [specTok]⟩
    · rw [h']
      exact ⟨_, _, rfl, by simp [unionTok]⟩
  obtain ⟨h₀, rest, hcmdeq, hhd⟩ := hcases
  cases hT : strippedOf l with
  | nil =>
    rw [commandOf, partsOf, hT] at hcmdeq
    have : splitWs [] = [[]] := by decide
    rw [this] at hcmdeq
    exact absurd hcmdeq (by simp)
  | cons c₀ T' =>
    have hc : isWsChar c₀ = false := by
      have hself : trimStart (strippedOf l) = strippedOf l := by
        rw [strippedOf]
        exact trimStart_trim _
      rw [hT] at hself
      exact head_not_ws_of_trimStart_self hself
    refine ⟨c₀, T', rfl, hc, ?_⟩
    rintro rfl
    obtain ⟨r, hr⟩ := commandOf_head hT hc
    rw [hcmdeq] at hr
    have : h₀ = Char.toLower '/' := by
      exact (List.cons.injEq _ _ _ _).mp hr |>.1
    rcases hhd with rfl | rfl | rfl | rfl | rfl | rfl | rfl | rfl | rfl | rfl <;>
      exact absurd this (by decide)

/-! ### Characterizing a produced node -/

lemma trim_idem (X : List Char) : trim (trim X) = trim X := by
  rw [trim, trimStart_trim, trimEnd_trim]

lemma trim_snoc_ws {T w : List Char} (hT : trim T = T)
    (hw : ∀ c ∈ w, isWsChar c = true) : trim (T ++ w) = T := by
  cases hTc : T with
  | nil =>
    rw [List.nil_append, trim, trimStart_eq_nil_iff.mpr hw]
    rfl
  | cons c₀ T' =>
    have hself : trimStart T = T := by
      conv_lhs => rw [← hT]
      rw [trimStart_trim, hT]
    have hc₀ : isWsChar c₀ = false :=
      head_not_ws_of_trimStart_self (by rw [← hTc, hself])
    rw [← hTc, trim]
    have hts : trimStart (T ++ w) = T ++ w := by
      rw [hTc, List.cons_append, trimStart_cons, if_neg (by simp [hc₀])]
    rw [hts, trimEnd_append_ws _ hw]
    conv_lhs => rw [← hT, trimEnd_trim]
    exact hT

lemma processLine_new_node {i : Nat} {st : ParseState} {l : List Char}
    {n : NodeData} (hn : n ∈ (processLine i st l).nodes) (hnotin : n ∉ st.nodes) :
    n.lineIndex = i ∧ cleanOf l ≠ [] ∧ isComment (cleanOf l) = false ∧
    (commandOf l ∈ nodeCommandTokens ∨
      commandOf l = specTok ∨ commandOf l = unionTok) ∧
    ((∃ m, findCoord (cleanOf l) = some m ∧ n.x = m.x ∧ n.y = m.y) ∨
      (findCoord (cleanOf l) = none ∧ n.x = (getDefaultPos st.steps).1 ∧
        n.y = (getDefaultPos st.steps).2)) := by
  by_cases h0 : cleanOf l = []
  · rw [processLine_of_clean_nil i st h0] at hn
    exact absurd hn hnotin
  by_cases hcm : isComment (cleanOf l) = true
  · rw [processLine_of_comment i st hcm] at hn
    exact absurd hn hnotin
  have hcm' : isComment (cleanOf l) = false := by simpa using hcm
  rw [processLine_eq i st h0 hcm'] at hn
  by_cases hnode : commandOf l ∈ nodeCommandTokens
  · rw [if_pos hnode] at hn
    obtain ⟨nd, hnd, hidx, hx, hy⟩ :=
      nodeBranch_nodes i st ((findCoord (cleanOf l)).map (fun m => (m.x, m.y)))
        (partsOf l) (commandOf l)
    rw [hnd] at hn
    rcases List.mem_append.mp hn with hin | hin
    · exact absurd hin hnotin
    · have heq : n = nd := by simpa using hin
      subst heq
      refine ⟨hidx, h0, hcm', Or.inl hnode, ?_⟩
      cases hfc : findCoord (cleanOf l) with
      | some m =>
        rw [hfc] at hx hy
        simp only [Option.map_some'] at hx hy
        exact Or.inl ⟨m, rfl, hx, hy⟩
      | none =>
        rw [hfc] at hx hy
        simp only [Option.map_none'] at hx hy
        exact Or.inr ⟨rfl, hx, hy⟩
  · rw [if_neg hnode] at hn
    by_cases hspec : commandOf l = specTok ∨ commandOf l = unionTok
    · rw [if_pos hspec] at hn
      obtain ⟨nd, hnd, hidx, hx, hy⟩ :=
        specBranch_nodes i st ((findCoord (cleanOf l)).map (fun m => (m.x, m.y)))
          (partsOf l) (commandOf l)
      rw [hnd] at hn
      rcases List.mem_append.mp hn with hin | hin
      · exact absurd hin hnotin
      · have heq : n = nd := by simpa using hin
        subst heq
        refine ⟨hidx, h0, hcm', Or.inr hspec, ?_⟩
        cases hfc : findCoord (cleanOf l) with
        | some m =>
          rw [hfc] at hx hy
          simp only [Option.map_some'] at hx hy
          exact Or.inl ⟨m, rfl, hx, hy⟩
        | none =>
          rw [hfc] at hx hy
          simp only [Option.map_none'] at hx hy
          exact Or.inr ⟨rfl, hx, hy⟩
    · rw [if_neg hspec] at hn
      by_cases hlink : commandOf l = linkTok
      · rw [if_pos hlink, linkBranch_nodes] at hn
        exact absurd hn hnotin
      · rw [if_neg hlink] at hn
        exact absurd hn hnotin

lemma wbLine_eq (l : List Char) (x y : Int) :
    wbLine l x y = trimEnd (stripCoord l) ++
      ' ' :: '(' :: (intDigits x ++ ',' :: ' ' :: (intDigits y ++ [')'])) := by
  rw [wbLine]
  cases hf : findCoord l with
  | none => rw [stripCoord_of_none hf]; simp
  | some m => simp

/-- Re-parsing the rewritten line: provided the line, with its first
coordinate match removed, shows no further occurrence of the coordinate
pattern, processing the rewritten line in any state produces exactly one node
carrying the written position. -/
lemma processLine_wb (l : List Char) (i : Nat) (st : ParseState) (x y : Int)
    (hcmd : commandOf l ∈ nodeCommandTokens ∨
      commandOf l = specTok ∨ commandOf l = unionTok)
    (hclean : findCoord (stripCoord (cleanOf l)) = none) :
    ∃ nd, (processLine i st (wbLine l x y)).nodes = st.nodes ++ [nd] ∧
      nd.lineIndex = i ∧ nd.x = x ∧ nd.y = y := by
  obtain ⟨c₀, T', hT, hc₀ws, hc₀slash⟩ := strippedOf_of_command hcmd
  have hTtrim : trim (stripCoord l) = strippedOf l := trim_stripCoord l
  have hTne : strippedOf l ≠ [] := by rw [hT]; simp
  have hTfc : findCoord (strippedOf l) = none := by
    rw [strippedOf]
    exact findCoord_trim_none hclean
  have hTisTrim : trim (strippedOf l) = strippedOf l := by
    rw [← hTtrim, trim_idem]
  set sfx : List Char :=
    ' ' :: '(' :: (intDigits x ++ ',' :: ' ' :: (intDigits y ++ [')'])) with hsfx
  have hsfxEnd : trimEnd sfx = sfx := by
    have : sfx = (' ' :: '(' :: (intDigits x ++ ',' :: ' ' :: intDigits y)) ++ [')'] := by
      rw [hsfx]
      simp
    rw [this, trimEnd_snoc_nonws _ (by decide)]
  have hclean' : cleanOf (wbLine l x y) = strippedOf l ++ sfx := by
    rw [cleanOf, wbLine_eq, trim]
    have hst : trimStart (trimEnd (stripCoord l)) = strippedOf l := by
      rw [← trim_comm, ← trim, hTtrim]
    rw [trimStart_append_of_ne_nil _ (by rw [hst]; exact hTne), hst,
      trimEnd_append_keep _ hsfxEnd (by rw [hsfx]; simp)]
  have hcleanne : cleanOf (wbLine l x y) ≠ [] := by
    rw [hclean', hT]
    simp
  have hcomment : isComment (cleanOf (wbLine l x y)) = false := by
    rw [hclean', hT, List.cons_append]
    cases T' with
    | nil =>
      rw [List.nil_append, hsfx, isComment]
      simp [hc₀slash]
    | cons d T'' =>
      rw [List.cons_append, isComment]
      simp [hc₀slash]
  have hfc' : findCoord (cleanOf (wbLine l x y)) =
      some ⟨strippedOf l ++ [' '], x, y, []⟩ := by
    rw [hclean', hsfx]
    exact findCoord_wb_line x y hTfc
  have hstripped' : strippedOf (wbLine l x y) = strippedOf l := by
    rw [strippedOf, show trim (wbLine l x y) = cleanOf (wbLine l x y) from rfl,
      stripCoord, hfc']
    simp only [List.append_nil]
    exact trim_snoc_ws hTisTrim (by
      intro c hc
      simp only [List.mem_singleton] at hc
      subst hc
      decide)
  have hparts' : partsOf (wbLine l x y) = partsOf l := by
    rw [partsOf, hstripped', partsOf]
  have hcommand' : commandOf (wbLine l x y) = commandOf l := by
    rw [commandOf, hparts', commandOf]
  rw [processLine_eq i st hcleanne hcomment, hfc']
  rcases hcmd with hnode | hspec
  · rw [if_pos (by rw [hcommand']; exact hnode)]
    obtain ⟨nd, hnd, hidx, hx, hy⟩ :=
      nodeBranch_nodes i st (Option.map (fun m => (m.x, m.y))
        (some (⟨strippedOf l ++ [' '], x, y, []⟩ : CoordMatch)))
        (partsOf (wbLine l x y)) (commandOf (wbLine l x y))
    simp only [Option.map_some'] at hx hy
    exact ⟨nd, hnd, hidx, hx, hy⟩
  · rw [if_neg ?_, if_pos (by rw [hcommand']; exact hspec)]
    · obtain ⟨nd, hnd, hidx, hx, hy⟩ :=
        specBranch_nodes i st (Option.map (fun m => (m.x, m.y))
          (some (⟨strippedOf l ++ [' '], x, y, []⟩ : CoordMatch)))
          (partsOf (wbLine l x y)) (commandOf (wbLine l x y))
      simp only [Option.map_some'] at hx hy
      exact ⟨nd, hnd, hidx, hx, hy⟩
    · rw [hcommand']
      intro hmem
      rcases hspec with h' | h'
      · rw [h'] at hmem
        exact absurd hmem (by decide)
      · rw [h'] at hmem
        exact absurd hmem (by decide)

/-! ### The write-back on documents -/

lemma jsRound_intCast (i : Int) : jsRound ((i : ℤ) : ℚ) = i := by
  rw [jsRound, show (1 : ℚ) / 2 = ((1 : ℚ) / 2) from rfl, Int.floor_int_add]
  norm_num

lemma take_set {α : Type} (l : List α) (i : Nat) (a : α) :
    (l.set i a).take i = l.take i := by
  induction l generalizing i with
  | nil => simp
  | cons b l ih =>
    cases i with
    | zero => simp
    | succ i =>
      rw [List.set_cons_succ, List.take_succ_cons, List.take_succ_cons, ih]

lemma getD_set_self {α : Type} (l : List α) (i : Nat) (a d : α)
    (h : i < l.length) : (l.set i a).getD i d = a := by
  rw [List.getD_eq_getElem?_getD, List.getElem?_set_self h]
  rfl

lemma getD_set_ne {α : Type} (l : List α) (i j : Nat) (a d : α) (hij : i ≠ j) :
    (l.set i a).getD j d = l.getD j d := by
  rw [List.getD_eq_getElem?_getD, List.getElem?_set_ne hij,
    ← List.getD_eq_getElem?_getD]

lemma list_split_at {α : Type} (l : List α) (i : Nat) (d : α)
    (h : i < l.length) : l = l.take i ++ l.getD i d :: l.drop (i + 1) := by
  conv_lhs => rw [← List.take_append_drop i l]
  congr 1
  rw [List.drop_eq_getElem_cons h, List.getD_eq_getElem?_getD,
    List.getElem?_eq_getElem h]
  rfl

lemma updateCodePosition_int (doc : List (List Char)) (i : Nat) (x y : Int) :
    updateCodePosition doc i ((x : ℤ) : ℚ) ((y : ℤ) : ℚ) =
      updateCodePositionInt doc i x y := by
  simp only [updateCodePosition, updateCodePositionInt, jsRound_intCast]

lemma updateCodePositionInt_set (doc : List (List Char)) (i : Nat) (x y : Int)
    (h : i < doc.length) :
    updateCodePositionInt doc i x y =
      doc.set i (wbLine (doc.getD i []) x y) := by
  simp only [updateCodePositionInt, wbLine, if_pos h]

lemma updateCodePositionInt_out (doc : List (List Char)) (i : Nat) (x y : Int)
    (h : doc.length ≤ i) : updateCodePositionInt doc i x y = doc := by
  simp only [updateCodePositionInt]
  rw [if_neg (by omega)]

/-- After an in-range write-back, re-parsing still yields a node of the same
line with exactly the written position, provided the stripped original line
shows no further coordinate occurrence. -/
lemma parse_set_wbLine (doc : List (List Char)) (k : Nat) (x y : Int)
    (hk : k < doc.length)
    (hcmd : commandOf (doc.getD k []) ∈ nodeCommandTokens ∨
      commandOf (doc.getD k []) = specTok ∨ commandOf (doc.getD k []) = unionTok)
    (hclean : findCoord (stripCoord (cleanOf (doc.getD k []))) = none) :
    ∃ nd, nd ∈ (parseCode (doc.set k (wbLine (doc.getD k []) x y))).nodes ∧
      nd.lineIndex = k ∧ nd.x = x ∧ nd.y = y := by
  set doc' := doc.set k (wbLine (doc.getD k []) x y) with hdoc'
  have hlen : doc'.length = doc.length := by rw [hdoc', List.length_set]
  have hk' : k < doc'.length := by omega
  have htake : doc'.take k = doc.take k := take_set doc k _
  have hgetD : doc'.getD k [] = wbLine (doc.getD k []) x y :=
    getD_set_self doc k _ [] hk
  have hsplit := list_split_at doc' k [] hk'
  have hlentake : (doc'.take k).length = k := by
    rw [List.length_take]
    omega
  obtain ⟨nd, hnd, hidx, hx, hy⟩ :=
    processLine_wb (doc.getD k []) k
      (processLines 0 initState (doc.take k)) x y hcmd hclean
  refine ⟨nd, ?_, hidx, hx, hy⟩
  rw [parseCode]
  conv_lhs => rw [hsplit]
  rw [processLines_append, hlentake, htake, processLines, hgetD]
  simp only [Nat.zero_add]
  apply mem_nodes_processLines
  rw [hnd]
  exact List.mem_append_right _ (by simp)

/-! ### Claim C1 -/

/-- C1 (amended): round-trip stability of the position write-back.  For every
document and every node produced by parsing it, if the node's origin line
with its first coordinate match removed contains no further occurrence of the
coordinate pattern, then writing the node's own parsed integer position back
(targeting its `originLine`) and re-parsing the resulting document yields a
node from that same line with the same `(x, y)`.  (The side condition is
forced by the counterexample `roundtrip_writeback_cex`: a line carrying a
second coordinate-shaped substring breaks the round trip, which the spec
itself declares an unsupported input.) -/
theorem parse_writeback_roundtrip (doc : List (List Char)) (n : NodeData)
    (hn : n ∈ (parseCode doc).nodes)
    (hclean : findCoord (stripCoord (cleanOf (doc.getD n.lineIndex []))) = none) :
    ∃ nd, nd ∈ (parseCode (updateCodePosition doc n.lineIndex
        ((n.x : ℤ) : ℚ) ((n.y : ℤ) : ℚ))).nodes ∧
      nd.lineIndex = n.lineIndex ∧ nd.x = n.x ∧ nd.y = n.y := by
  rw [parseCode] at hn
  rcases processLines_node_origin doc 0 initState hn with hin | ⟨k, hk, hnot, hmem⟩
  · exact absurd hin (by simp [initState])
  · obtain ⟨hidx, -, -, hcmd, -⟩ := processLine_new_node hmem hnot
    have hkn : n.lineIndex = k := by omega
    rw [hkn] at hclean ⊢
    rw [updateCodePosition_int, updateCodePositionInt_set _ _ _ _ hk]
    exact parse_set_wbLine doc k n.x n.y hk hcmd hclean

/-- C1, concrete instance: applying the round-trip theorem to the one-line
document `ent A (10, 20)` and its parsed node. -/
theorem parse_writeback_roundtrip_witness :
    ((⟨some (str "A"), NodeType.entity, some (str "A"), 10, 20, none, 0⟩ :
        NodeData) ∈ (parseCode [str "ent A (10, 20)"]).nodes ∧
      findCoord (stripCoord (cleanOf ([str "ent A (10, 20)"].getD 0 []))) = none) ∧
    ∃ nd, nd ∈ (parseCode (updateCodePosition [str "ent A (10, 20)"] 0
        ((10 : ℤ) : ℚ) ((20 : ℤ) : ℚ))).nodes ∧
      nd.lineIndex = 0 ∧ nd.x = 10 ∧ nd.y = 20 :=
  ⟨⟨by decide, by decide⟩,
    parse_writeback_roundtrip [str "ent A (10, 20)"]
      ⟨some (str "A"), NodeType.entity, some (str "A"), 10, 20, none, 0⟩
      (by decide) (by decide)⟩

/-- C1, counterexample to the unconditional claim: the line
`ent A (1, 2) (3, 4)` parses to a node at `(1, 2)`, but writing `(1, 2)` back
to line 0 produces `ent A  (3, 4) (1, 2)`, whose re-parse yields the position
`(3, 4)` — the removal of the first match promotes the second
coordinate-shaped substring to leftmost match. -/
theorem roundtrip_writeback_cex :
    (parseCode [str "ent A (1, 2) (3, 4)"]).nodes =
      [⟨some (str "A"), NodeType.entity, some (str "A"), 1, 2, none, 0⟩] ∧
    updateCodePosition [str "ent A (1, 2) (3, 4)"] 0 ((1 : ℤ) : ℚ) ((2 : ℤ) : ℚ) =
      [str "ent A  (3, 4) (1, 2)"] ∧
    (parseCode (updateCodePosition [str "ent A (1, 2) (3, 4)"] 0
        ((1 : ℤ) : ℚ) ((2 : ℤ) : ℚ))).nodes.map (fun nd => (nd.lineIndex, nd.x, nd.y)) =
      [(0, 3, 4)] := by
  refine ⟨by decide, ?_, ?_⟩
  · rw [updateCodePosition_int]
    decide
  · rw [updateCodePosition_int]
    decide

/-! ### Recognized commands rule out the skip paths -/

lemma trimEnd_cons_head (c : Char) (cs : List Char) (hc : isWsChar c = false) :
    ∃ r, trimEnd (c :: cs) = c :: r := by
  rw [trimEnd_cons]
  by_cases h : trimEnd cs = []
  · exact ⟨[], by rw [if_pos h, if_neg (by simp [hc])]⟩
  · exact ⟨trimEnd cs, by rw [if_neg h]⟩

lemma trim_cons_head (c : Char) (cs : List Char) (hc : isWsChar c = false) :
    ∃ r, trim (c :: cs) = c :: r := by
  rw [trim, trimStart_cons, if_neg (by simp [hc])]
  exact trimEnd_cons_head c cs hc

/-- Like `strippedOf_of_command`, but for the full recognized-command set. -/
lemma strippedOf_of_recognized {l : List Char}
    (hcmd : commandOf l ∈ recognizedCommandTokens) :
    ∃ c₀ T', strippedOf l = c₀ :: T' ∧ isWsChar c₀ = false ∧ c₀ ≠ '/' := by
  have hcases : ∃ h₀ rest, commandOf l = h₀ :: rest ∧
      (h₀ = 'e' ∨ h₀ = 'w' ∨ h₀ = 'r' ∨ h₀ = 'i' ∨ h₀ = 'a' ∨ h₀ = 'k' ∨
        h₀ = 'd' ∨ h₀ = 'm' ∨ h₀ = 's' ∨ h₀ = 'u' ∨ h₀ = 'l') := by
    simp only [recognizedCommandTokens, nodeCommandTokens, List.mem_append,
      List.mem_cons, List.mem_singleton, List.not_mem_nil, or_false] at hcmd
    rcases hcmd with ((h' | h' | h' | h' | h' | h' | h' | h') | h' | h' | h') <;>
      · rw [h']
        exact ⟨_, _, rfl, by simp [entTok, weakEntTok, relTok, identRelTok,
          attTok, keyAttTok, derivedAttTok, multiAttTok, specTok, unionTok, linkTok]⟩
  obtain ⟨h₀, rest, hcmdeq, hhd⟩ := hcases
  cases hT : strippedOf l with
  | nil =>
    rw [commandOf, partsOf, hT] at hcmdeq
    have hnil : splitWs [] = [[]] := by decide
    rw [hnil] at hcmdeq
    exact absurd hcmdeq (by simp)
  | cons c₀ T' =>
    have hc : isWsChar c₀ = false := by
      have hself : trimStart (strippedOf l) = strippedOf l := by
        rw [strippedOf]
        exact trimStart_trim _
      rw [hT] at hself
      exact head_not_ws_of_trimStart_self hself
    refine ⟨c₀, T', rfl, hc, ?_⟩
    rintro rfl
    obtain ⟨r, hr⟩ := commandOf_head hT hc
    rw [hcmdeq] at hr
    have hts : h₀ = Char.toLower '/' := (List.cons.injEq _ _ _ _).mp hr |>.1
    rcases hhd with rfl | rfl | rfl | rfl | rfl | rfl | rfl | rfl | rfl | rfl | rfl <;>
      exact absurd hts (by decide)

/-- A line with a recognized command keyword is neither blank nor a comment. -/
lemma cleanOf_facts_of_recognized {l : List Char}
    (hcmd : commandOf l ∈ recognizedCommandTokens) :
    cleanOf l ≠ [] ∧ isComment (cleanOf l) = false := by
  obtain ⟨c₀, T', hT, hc₀ws, hc₀slash⟩ := strippedOf_of_recognized hcmd
  have hcleanne : cleanOf l ≠ [] := by
    intro h0
    rw [strippedOf, show trim l = cleanOf l from rfl, h0] at hT
    have : stripCoord ([] : List Char) = [] := rfl
    rw [this] at hT
    exact absurd hT (by simp [trim, trimStart, trimEnd])
  refine ⟨hcleanne, ?_⟩
  by_contra hcm
  have hcm' : isComment (cleanOf l) = true := by
    revert hcm
    cases isComment (cleanOf l) <;> simp
  obtain ⟨r, hr⟩ : ∃ r, cleanOf l = '/' :: '/' :: r := by
    cases hcc : cleanOf l with
    | nil => exact absurd hcc hcleanne
    | cons a t =>
      cases t with
      | nil =>
        rw [hcc] at hcm'
        exact absurd hcm' (by simp [isComment])
      | cons b r =>
        rw [hcc, isComment] at hcm'
        simp only [Bool.and_eq_true, decide_eq_true_eq] at hcm'
        obtain ⟨ha, hb⟩ := hcm'
        subst ha
        subst hb
        exact ⟨r, rfl⟩
  have hstr : ∃ s, strippedOf l = '/' :: s := by
    have hstrip : ∃ u, stripCoord (cleanOf l) = '/' :: '/' :: u := by
      rw [hr, stripCoord, findCoord, coordHere_cons_ne (by decide), findCoord,
        coordHere_cons_ne (by decide)]
      cases hfr : findCoord r with
      | none => exact ⟨r, rfl⟩
      | some m => exact ⟨m.pre ++ m.rest, rfl⟩
    obtain ⟨u, hu⟩ := hstrip
    rw [strippedOf, show trim l = cleanOf l from rfl, hu]
    obtain ⟨s, hs⟩ := trim_cons_head '/' ('/' :: u) (by decide)
    exact ⟨s, hs⟩
  obtain ⟨s, hs⟩ := hstr
  rw [hT] at hs
  exact hc₀slash ((List.cons.injEq _ _ _ _).mp hs).1

/-- Behaviour of `processLine` on a `link` statement. -/
lemma processLine_link {l : List Char} (i : Nat) (st : ParseState)
    (hlink : commandOf l = linkTok) :
    processLine i st l = linkBranch st (partsOf l) (strippedOf l) := by
  have hrec : commandOf l ∈ recognizedCommandTokens := by
    rw [hlink, recognizedCommandTokens]
    simp
  obtain ⟨hne, hcm⟩ := cleanOf_facts_of_recognized hrec
  rw [processLine_eq i st hne hcm, if_neg (by rw [hlink]; decide),
    if_neg (by rw [hlink]; decide), if_pos hlink]

/-! ### Claims C2 and C5: the write-back frame -/

lemma updateCodePosition_set (doc : List (List Char)) (k : Nat) (x y : ℚ)
    (h : k < doc.length) :
    updateCodePosition doc k x y =
      doc.set k (trimEnd (stripCoord (doc.getD k [])) ++
        ' ' :: '(' :: (intDigits (jsRound x) ++
          ',' :: ' ' :: (intDigits (jsRound y) ++ [')']))) := by
  simp only [updateCodePosition, if_pos h]
  congr 2
  cases hf : findCoord (doc.getD k []) with
  | none => rw [stripCoord_of_none hf]; simp
  | some m => simp

/-- C2: write-back frame effect.  For every document, every in-range
`originLine` and every new position, the write-back modifies exactly the line
at `originLine` — the new line is the old one with the (first) coordinate
match removed if present, trailing whitespace trimmed, and the canonical
suffix `" (" ++ round x ++ ", " ++ round y ++ ")"` appended — and every other
line of the document is unchanged byte for byte. -/
theorem writeback_frame (doc : List (List Char)) (k : Nat) (x y : ℚ)
    (h : k < doc.length) :
    (updateCodePosition doc k x y).length = doc.length ∧
    (∀ j, j ≠ k → (updateCodePosition doc k x y).getD j [] = doc.getD j []) ∧
    (updateCodePosition doc k x y).getD k [] =
      trimEnd (stripCoord (doc.getD k [])) ++
        ' ' :: '(' :: (intDigits (jsRound x) ++
          ',' :: ' ' :: (intDigits (jsRound y) ++ [')'])) := by
  rw [updateCodePosition_set doc k x y h]
  refine ⟨List.length_set doc _ _ ▸ rfl, ?_, getD_set_self _ _ _ _ h⟩
  intro j hj
  exact getD_set_ne _ _ _ _ _ (fun hkj => hj hkj.symm)

/-- C2, concrete instance: writing `(99, 5)` back to line 0 of the two-line
document `["ent A (10, 20)", "// note"]`. -/
theorem writeback_frame_witness :
    0 < ([str "ent A (10, 20)", str "// note"] : List (List Char)).length ∧
    ((updateCodePosition [str "ent A (10, 20)", str "// note"] 0
        ((99 : ℤ) : ℚ) ((5 : ℤ) : ℚ)).length =
      ([str "ent A (10, 20)", str "// note"] : List (List Char)).length ∧
    (∀ j, j ≠ 0 →
      (updateCodePosition [str "ent A (10, 20)", str "// note"] 0
        ((99 : ℤ) : ℚ) ((5 : ℤ) : ℚ)).getD j [] =
        ([str "ent A (10, 20)", str "// note"] : List (List Char)).getD j []) ∧
    (updateCodePosition [str "ent A (10, 20)", str "// note"] 0
        ((99 : ℤ) : ℚ) ((5 : ℤ) : ℚ)).getD 0 [] =
      trimEnd (stripCoord (([str "ent A (10, 20)", str "// note"] :
          List (List Char)).getD 0 [])) ++
        ' ' :: '(' :: (intDigits (jsRound ((99 : ℤ) : ℚ)) ++
          ',' :: ' ' :: (intDigits (jsRound ((5 : ℤ) : ℚ)) ++ [')']))) :=
  ⟨by decide,
    writeback_frame [str "ent A (10, 20)", str "// note"] 0 _ _ (by decide)⟩

/-- C5: an out-of-range write-back is an atomic no-op — for every document
and every `originLine` at or beyond the document length, the write-back
returns the document unchanged (no line is altered) and raises no error (the
function is total). -/
theorem writeback_out_of_range (doc : List (List Char)) (k : Nat) (x y : ℚ)
    (h : doc.length ≤ k) : updateCodePosition doc k x y = doc := by
  rw [updateCodePosition]
  rw [if_neg (by omega)]

/-- C5, concrete instance: a write-back to line 5 of a one-line document
leaves the document untouched. -/
theorem writeback_out_of_range_witness :
    ([str "ent A (1, 2)"] : List (List Char)).length ≤ 5 ∧
    updateCodePosition [str "ent A (1, 2)"] 5 ((7 : ℤ) : ℚ) ((8 : ℤ) : ℚ) =
      [str "ent A (1, 2)"] :=
  ⟨by decide, writeback_out_of_range [str "ent A (1, 2)"] 5 _ _ (by decide)⟩

/-! ### Claim C7: determinism -/

/-- C7: deterministic parse.  Two runs of the parser on identical input text
produce identical node lists and link lists — including identical
default-placed (spiral) coordinates for every node lacking explicit
coordinates, because the spiral angle accumulator is re-initialized inside
each `parseCode` invocation (`initState`) rather than shared across runs. -/
theorem parse_deterministic (c₁ c₂ : List (List Char)) (h : c₁ = c₂) :
    (parseCode c₁).nodes = (parseCode c₂).nodes ∧
    (parseCode c₁).links = (parseCode c₂).links := by
  subst h
  exact ⟨rfl, rfl⟩

/-- C7, concrete instance: two parses of a document with a coordinate-less
(default-placed) node. -/
theorem parse_deterministic_witness :
    ([str "ent A", str "link A A"] : List (List Char)) = [str "ent A", str "link A A"] ∧
    ((parseCode [str "ent A", str "link A A"]).nodes =
        (parseCode [str "ent A", str "link A A"]).nodes ∧
      (parseCode [str "ent A", str "link A A"]).links =
        (parseCode [str "ent A", str "link A A"]).links) :=
  ⟨rfl, parse_deterministic [str "ent A", str "link A A"] _ rfl⟩

/-! ### Claim C8: leniency toward unrecognized keywords -/

/-- C8: unrecognized-keyword leniency.  If the (lower-cased) command keyword
of the line at index `k` is not recognized, then processing that line leaves
the parse state untouched — the line contributes zero nodes and zero links
and does not advance the spiral or the id set — and the whole parse of the
document coincides with the parse of the document with that line replaced by
a blank line, so the nodes and links produced from all other lines are
unaffected. -/
theorem unrecognized_leniency (doc : List (List Char)) (k : Nat)
    (h : commandOf (doc.getD k []) ∉ recognizedCommandTokens) :
    processLine k (processLines 0 initState (doc.take k)) (doc.getD k []) =
      processLines 0 initState (doc.take k) ∧
    parseCode doc = parseCode (doc.set k []) := by
  refine ⟨processLine_of_unrecognized k _ h, ?_⟩
  by_cases hk : k < doc.length
  · rw [parseCode, parseCode]
    conv_lhs => rw [list_split_at doc k [] hk]
    conv_rhs => rw [list_split_at (doc.set k []) k []
      (by rw [List.length_set]; exact hk)]
    rw [take_set, getD_set_self _ _ _ _ hk,
      show (doc.set k []).drop (k + 1) = doc.drop (k + 1) by
        rw [List.drop_set, if_pos (by omega)]]
    rw [processLines_append, processLines_append, processLines, processLines,
      processLine_of_unrecognized _ _ h,
      processLine_of_clean_nil _ _ (by rfl)]
  · rw [List.set_eq_of_length_le (by omega)]

/-- C8, concrete instance: the line `foo bar` contributes nothing, and
replacing it by a blank line leaves the parse unchanged. -/
theorem unrecognized_leniency_witness :
    commandOf (([str "ent A (1, 2)", str "foo bar (3, 4)"] :
        List (List Char)).getD 1 []) ∉ recognizedCommandTokens ∧
    (processLine 1 (processLines 0 initState
        (([str "ent A (1, 2)", str "foo bar (3, 4)"] : List (List Char)).take 1))
        (([str "ent A (1, 2)", str "foo bar (3, 4)"] : List (List Char)).getD 1 []) =
      processLines 0 initState
        (([str "ent A (1, 2)", str "foo bar (3, 4)"] : List (List Char)).take 1) ∧
    parseCode [str "ent A (1, 2)", str "foo bar (3, 4)"] =
      parseCode (([str "ent A (1, 2)", str "foo bar (3, 4)"] :
        List (List Char)).set 1 [])) :=
  ⟨by decide, unrecognized_leniency [str "ent A (1, 2)", str "foo bar (3, 4)"] 1
    (by decide)⟩

/-! ### Claim C3: id uniqueness fails on a suffix collision -/

/-- C3 (evaluation of the code at the failing input): on the document
`ent A / ent A_2 / ent A` the id resolver assigns `A_2` twice — the collision
suffix `label_lineIndex` is not itself re-checked against the id set — so the
node ids of one parse pass are not pairwise distinct, contradicting both the
spec's uniqueness guarantee and the code's own comment that `existingIds`
exists to avoid duplicate ids. -/
theorem duplicate_ids_eval :
    (parseCode [str "ent A (1, 1)", str "ent A_2 (2, 2)",
        str "ent A (3, 3)"]).nodes.map (fun n => n.id) =
      [some (str "A"), some (str "A_2"), some (str "A_2")] ∧
    ¬ ((parseCode [str "ent A (1, 1)", str "ent A_2 (2, 2)",
        str "ent A (3, 3)"]).nodes.map (fun n => n.id)).Nodup := by
  exact ⟨by decide, by decide⟩

/-! ### Claim C6: the attribute id rule -/

lemma attCmd_of_attType {command : List Char}
    (h : isAttType (nodeTypeOf command) = true) : command ∈ attCommandTokens := by
  rw [nodeTypeOf] at h
  split_ifs at h with h1 h2 h3 h4 h5 h6 h7
  · exact absurd h (by decide)
  · exact absurd h (by decide)
  · exact absurd h (by decide)
  · rw [h4]
    simp [attCommandTokens]
  · rw [h5]
    simp [attCommandTokens]
  · rw [h6]
    simp [attCommandTokens]
  · rw [h7]
    simp [attCommandTokens]
  · exact absurd h (by decide)

lemma processLine_att_id (i : Nat) (st : ParseState) (l : List Char)
    (n : NodeData) (hn : n ∈ (processLine i st l).nodes) :
    n ∈ st.nodes ∨ (isAttType n.type = true →
      n.id = some (optText n.label ++ '_' :: natDigits n.lineIndex)) := by
  by_cases h0 : cleanOf l = []
  · rw [processLine_of_clean_nil i st h0] at hn
    exact Or.inl hn
  by_cases hcm : isComment (cleanOf l) = true
  · rw [processLine_of_comment i st hcm] at hn
    exact Or.inl hn
  rw [processLine_eq i st h0 (by simpa using hcm)] at hn
  by_cases hnode : commandOf l ∈ nodeCommandTokens
  · rw [if_pos hnode] at hn
    simp only [nodeBranch, List.mem_append, List.mem_singleton] at hn
    rcases hn with hin | rfl
    · exact Or.inl hin
    · refine Or.inr fun hat => ?_
      have hcmd : commandOf l ∈ attCommandTokens := attCmd_of_attType hat
      rw [if_pos (Or.inl hcmd)]
  · rw [if_neg hnode] at hn
    by_cases hspec : commandOf l = specTok ∨ commandOf l = unionTok
    · rw [if_pos hspec] at hn
      simp only [specBranch, List.mem_append, List.mem_singleton] at hn
      rcases hn with hin | rfl
      · exact Or.inl hin
      · refine Or.inr fun hat => ?_
        exact absurd hat (by
          dsimp only
          split <;> decide)
    · rw [if_neg hspec] at hn
      by_cases hlink : commandOf l = linkTok
      · rw [if_pos hlink, linkBranch_nodes] at hn
        exact Or.inl hn
      · rw [if_neg hlink] at hn
        exact Or.inl hn

lemma processLines_att_id :
    ∀ (ls : List (List Char)) (i : Nat) (st : ParseState) (n : NodeData),
      n ∈ (processLines i st ls).nodes →
      n ∈ st.nodes ∨ (isAttType n.type = true →
        n.id = some (optText n.label ++ '_' :: natDigits n.lineIndex)) := by
  intro ls
  induction ls with
  | nil =>
    intro i st n h
    exact Or.inl h
  | cons l ls ih =>
    intro i st n h
    rw [processLines] at h
    rcases ih (i + 1) (processLine i st l) n h with h' | hp
    · exact processLine_att_id i st l n h'
    · exact Or.inr hp

/-- C6: attribute id rule and non-aliasing.  Every attribute-kind node of a
parse receives `id = label ++ "_" ++ lineIndex` (with JS `undefined`
interpolating as the text `undefined` when the label token is missing), and
consequently two attribute-kind declarations on different lines never receive
the same id — even when their labels are equal — because the digits of the
line index, which contain no underscore, are the text after the last
underscore of the id. -/
theorem attribute_id_rule (doc : List (List Char)) (n₁ n₂ : NodeData)
    (h₁ : n₁ ∈ (parseCode doc).nodes) (h₂ : n₂ ∈ (parseCode doc).nodes)
    (ha₁ : isAttType n₁.type = true) (ha₂ : isAttType n₂.type = true)
    (hne : n₁.lineIndex ≠ n₂.lineIndex) :
    n₁.id = some (optText n₁.label ++ '_' :: natDigits n₁.lineIndex) ∧
    n₁.id ≠ n₂.id := by
  have hid : ∀ n ∈ (parseCode doc).nodes, isAttType n.type = true →
      n.id = some (optText n.label ++ '_' :: natDigits n.lineIndex) := by
    intro n hn hat
    rcases processLines_att_id doc 0 initState n hn with h0 | hp
    · exact absurd h0 (by simp [initState])
    · exact hp hat
  refine ⟨hid n₁ h₁ ha₁, ?_⟩
  intro heq
  rw [hid n₁ h₁ ha₁, hid n₂ h₂ ha₂] at heq
  have heq' := Option.some.inj heq
  exact hne (label_underscore_index_inj heq')

/-- C6, concrete instance: two `att Nombre` declarations with equal labels on
lines 0 and 1 receive the distinct ids `Nombre_0` and `Nombre_1`. -/
theorem attribute_id_rule_witness :
    ((⟨some (str "Nombre_0"), NodeType.attribute, some (str "Nombre"), 1, 2,
        none, 0⟩ : NodeData) ∈
      (parseCode [str "att Nombre -> A (1, 2)",
        str "att Nombre -> B (3, 4)"]).nodes ∧
    (⟨some (str "Nombre_1"), NodeType.attribute, some (str "Nombre"), 3, 4,
        none, 1⟩ : NodeData) ∈
      (parseCode [str "att Nombre -> A (1, 2)",
        str "att Nombre -> B (3, 4)"]).nodes) ∧
    ((⟨some (str "Nombre_0"), NodeType.attribute, some (str "Nombre"), 1, 2,
        none, 0⟩ : NodeData).id =
      some (optText (some (str "Nombre")) ++ '_' :: natDigits 0) ∧
    (⟨some (str "Nombre_0"), NodeType.attribute, some (str "Nombre"), 1, 2,
        none, 0⟩ : NodeData).id ≠
      (⟨some (str "Nombre_1"), NodeType.attribute, some (str "Nombre"), 3, 4,
        none, 1⟩ : NodeData).id) :=
  ⟨⟨by decide, by decide⟩,
    attribute_id_rule [str "att Nombre -> A (1, 2)", str "att Nombre -> B (3, 4)"]
      ⟨some (str "Nombre_0"), NodeType.attribute, some (str "Nombre"), 1, 2, none, 0⟩
      ⟨some (str "Nombre_1"), NodeType.attribute, some (str "Nombre"), 3, 4, none, 1⟩
      (by decide) (by decide) (by decide) (by decide) (by decide)⟩

/-! ### Claim C4: link production and retention -/

lemma processLine_link_spec (i : Nat) (st : ParseState) (l : List Char)
    (hlink : commandOf l = linkTok) :
    (processLine i st l).nodes = st.nodes ∧
    (processLine i st l).links = st.links ++
      (if jsTruthy (linkSource l) ∧ jsTruthy (linkTarget l) then [linkOf l]
       else []) := by
  rw [processLine_link i st hlink]
  refine ⟨linkBranch_nodes st _ _, ?_⟩
  rw [linkBranch_links]
  rfl

/-- C4, counterexample to the literal claim: a `link` statement whose two
endpoint ids correspond to no parsed node still produces a Link record in the
model — nothing is dropped at parse time. -/
theorem dangling_link_cex :
    (parseCode [str "link GHOST PHANTOM \"1\""]).nodes = [] ∧
    (parseCode [str "link GHOST PHANTOM \"1\""]).links =
      [⟨some (str "GHOST"), some (str "PHANTOM"), str "1",
        LinkStyle.solid⟩] := by
  exact ⟨by decide, by decide⟩

/-- C4 (amended): a `link` statement produces a Link record exactly when both
its source and target tokens are present (JS-truthy); the record is built
from the statement's tokens alone and is retained in the model regardless of
whether its endpoint ids correspond to any parsed Node — dangling links are
skipped only by the renderer, not by the Model Builder. -/
theorem link_production_retention (doc : List (List Char)) (k : Nat)
    (hk : k < doc.length) (hlink : commandOf (doc.getD k []) = linkTok) :
    (processLine k (processLines 0 initState (doc.take k)) (doc.getD k [])).nodes =
      (processLines 0 initState (doc.take k)).nodes ∧
    (processLine k (processLines 0 initState (doc.take k)) (doc.getD k [])).links =
      (processLines 0 initState (doc.take k)).links ++
        (if jsTruthy (linkSource (doc.getD k [])) ∧
            jsTruthy (linkTarget (doc.getD k [])) then
          [linkOf (doc.getD k [])]
        else []) ∧
    (jsTruthy (linkSource (doc.getD k [])) ∧
        jsTruthy (linkTarget (doc.getD k [])) →
      linkOf (doc.getD k []) ∈ (parseCode doc).links) := by
  obtain ⟨hnodes, hlinks⟩ :=
    processLine_link_spec k (processLines 0 initState (doc.take k))
      (doc.getD k []) hlink
  refine ⟨hnodes, hlinks, fun htr => ?_⟩
  have hlentake : (doc.take k).length = k := by
    rw [List.length_take]
    omega
  rw [parseCode]
  conv_lhs => rw [list_split_at doc k [] hk]
  rw [processLines_append, hlentake, processLines]
  simp only [Nat.zero_add]
  apply mem_links_processLines
  rw [hlinks, if_pos htr]
  exact List.mem_append_right _ (by simp)

/-- C4, concrete instance of the amended claim: the dangling statement
`link GHOST PHANTOM "1"` has both tokens present and its record is retained
in the parsed model. -/
theorem link_production_retention_witness :
    (0 < ([str "link GHOST PHANTOM \"1\""] : List (List Char)).length ∧
      commandOf (([str "link GHOST PHANTOM \"1\""] :
        List (List Char)).getD 0 []) = linkTok) ∧
    (jsTruthy (linkSource (([str "link GHOST PHANTOM \"1\""] :
        List (List Char)).getD 0 [])) ∧
      jsTruthy (linkTarget (([str "link GHOST PHANTOM \"1\""] :
        List (List Char)).getD 0 []))) ∧
    linkOf (([str "link GHOST PHANTOM \"1\""] : List (List Char)).getD 0 []) ∈
      (parseCode [str "link GHOST PHANTOM \"1\""]).links :=
  ⟨⟨by decide, by decide⟩, ⟨by decide, by decide⟩,
    (link_production_retention [str "link GHOST PHANTOM \"1\""] 0
      (by decide) (by decide)).2.2 ⟨by decide, by decide⟩⟩

/-! ### Claim C9: a node command without a label -/

/-- C9, counterexample to the literal claim: a recognized node-declaring
command with no label token is not silently ignored.  The bare line `ent`
contributes one Node with absent id and absent label; the bare line `att`
(attribute-kind) contributes one Node with the interpolated id string
`undefined_0`; a second bare `ent` hits the collision branch and gets the id
string `undefined_1`. -/
theorem malformed_node_command_cex :
    (parseCode [str "ent"]).nodes.map (fun n => (n.id, n.label, n.lineIndex)) =
      [(none, none, 0)] ∧
    (parseCode [str "ent"]).links = [] ∧
    (parseCode [str "att"]).nodes.map (fun n => (n.id, n.label)) =
      [(some (str "undefined_0"), none)] ∧
    (parseCode [str "ent", str "ent"]).nodes.map (fun n => n.id) =
      [none, some (str "undefined_1")] := by
  exact ⟨by decide, by decide, by decide, by decide⟩

/-- C9 (amended): a line whose first token is not a recognized command
keyword contributes nothing, and a `link` line missing its source or target
token contributes no Link; but a recognized node-declaring command with no
label token is not ignored: it contributes exactly one Node and no Link.
That Node's label is absent (JS `undefined`), and its id is the interpolated
string `"undefined_" ++ lineIndex` when the command is attribute-kind or the
absent id is already registered in the id set (an earlier labelless
non-attribute node), and is itself absent otherwise. -/
theorem malformed_statements (l : List Char) (i : Nat) (st : ParseState) :
    (commandOf l ∉ recognizedCommandTokens → processLine i st l = st) ∧
    (commandOf l = linkTok →
      ¬(jsTruthy (linkSource l) = true ∧ jsTruthy (linkTarget l) = true) →
      processLine i st l = st) ∧
    (commandOf l ∈ nodeCommandTokens → (partsOf l).get? 1 = none →
      ∃ nd, (processLine i st l).nodes = st.nodes ++ [nd] ∧ nd.label = none ∧
        nd.id = (if commandOf l ∈ attCommandTokens ∨ none ∈ st.existingIds
          then some (optText none ++ '_' :: natDigits i) else none) ∧
        (processLine i st l).links = st.links) := by
  refine ⟨fun h => processLine_of_unrecognized i st h, fun hlink htr => ?_, ?_⟩
  · rw [processLine_link i st hlink, linkBranch]
    rw [if_neg (by
      intro hand
      exact htr ⟨hand.1, hand.2⟩)]
  · intro hnode hlab
    obtain ⟨hne, hcm⟩ := cleanOf_facts_of_recognized
      (by rw [recognizedCommandTokens]; exact List.mem_append_left _ hnode)
    rw [processLine_eq i st hne hcm, if_pos hnode]
    have hlab2 : (partsOf l).get? 2 = none := by
      rw [List.get?_eq_none] at hlab ⊢
      omega
    refine ⟨_, rfl, ?_, ?_, ?_⟩
    · show (partsOf l).get? 1 = none
      exact hlab
    · show (if commandOf l ∈ attCommandTokens ∨
            (partsOf l).get? 1 ∈ st.existingIds
          then some (optText ((partsOf l).get? 1) ++ '_' :: natDigits i)
          else (partsOf l).get? 1) = _
      rw [hlab]
    · show (if (partsOf l).get? 2 = some arrowTok ∧
          jsTruthy ((partsOf l).get? 3) then _ else st.links) = st.links
      rw [if_neg (by
        rintro ⟨h2, -⟩
        rw [hlab2] at h2
        exact absurd h2 (by simp))]

/-- C9, concrete instance of the amended claim, at the line `att` in the
initial state: the attribute-kind command with no label token yields a node
with absent label and the interpolated id. -/
theorem malformed_statements_witness :
    (commandOf (str "att") ∉ recognizedCommandTokens →
      processLine 0 initState (str "att") = initState) ∧
    (commandOf (str "att") = linkTok →
      ¬(jsTruthy (linkSource (str "att")) = true ∧
        jsTruthy (linkTarget (str "att")) = true) →
      processLine 0 initState (str "att") = initState) ∧
    (commandOf (str "att") ∈ nodeCommandTokens →
      (partsOf (str "att")).get? 1 = none →
      ∃ nd, (processLine 0 initState (str "att")).nodes =
          initState.nodes ++ [nd] ∧ nd.label = none ∧
        nd.id = (if commandOf (str "att") ∈ attCommandTokens ∨
            none ∈ initState.existingIds
          then some (optText none ++ '_' :: natDigits 0) else none) ∧
        (processLine 0 initState (str "att")).links = initState.links) :=
  malformed_statements (str "att") 0 initState

/-! ### Claim C10: the total-participation marker -/

/-- C10: total-participation detection is a substring search over the whole
coordinate-stripped link line.  A `link` statement's style is `double`
exactly when `[total]` or `[double]` occurs anywhere in the
coordinate-stripped line — including inside the quoted label — so
`link A B "[total]"` produces one Link with label `[total]` and style
`double` even though no standalone marker token is present; absence of both
substrings yields `solid`. -/
theorem link_style_substring (l : List Char) (i : Nat) (st : ParseState)
    (hlink : commandOf l = linkTok)
    (htr : jsTruthy (linkSource l) = true ∧ jsTruthy (linkTarget l) = true) :
    ((processLine i st l).links = st.links ++ [linkOf l] ∧
      ((linkOf l).style = LinkStyle.double ↔
        (containsSub totalTok (strippedOf l) = true ∨
          containsSub doubleTok (strippedOf l) = true))) ∧
    (parseCode [str "link A B \"[total]\""]).links =
      [⟨some (str "A"), some (str "B"), str "[total]", LinkStyle.double⟩] ∧
    (parseCode [str "link A B \"1\""]).links =
      [⟨some (str "A"), some (str "B"), str "1", LinkStyle.solid⟩] := by
  refine ⟨⟨?_, ?_⟩, by decide, by decide⟩
  · rw [(processLine_link_spec i st l hlink).2, if_pos ⟨htr.1, htr.2⟩]
  · rw [linkOf]
    show linkStyle l = LinkStyle.double ↔ _
    rw [linkStyle]
    constructor
    · intro h
      by_contra hno
      push_neg at hno
      rw [if_neg (by
        rintro (h1 | h2)
        · exact absurd h1 (by simp [hno.1])
        · exact absurd h2 (by simp [hno.2]))] at h
      exact absurd h (by decide)
    · intro h
      rw [if_pos (by
        rcases h with h | h
        · exact Or.inl h
        · exact Or.inr h)]

/-- C10, concrete instance: applying the style characterization to the line
`link A B "[total]"`. -/
theorem link_style_substring_witness :
    (commandOf (str "link A B \"[total]\"") = linkTok ∧
      jsTruthy (linkSource (str "link A B \"[total]\"")) = true ∧
      jsTruthy (linkTarget (str "link A B \"[total]\"")) = true) ∧
    ((processLine 0 initState (str "link A B \"[total]\"")).links =
        initState.links ++ [linkOf (str "link A B \"[total]\"")] ∧
      ((linkOf (str "link A B \"[total]\"")).style = LinkStyle.double ↔
        (containsSub totalTok (strippedOf (str "link A B \"[total]\"")) = true ∨
          containsSub doubleTok (strippedOf (str "link A B \"[total]\"")) = true))) ∧
    (parseCode [str "link A B \"[total]\""]).links =
      [⟨some (str "A"), some (str "B"), str "[total]", LinkStyle.double⟩] ∧
    (parseCode [str "link A B \"1\""]).links =
      [⟨some (str "A"), some (str "B"), str "1", LinkStyle.solid⟩] :=
  ⟨⟨by decide, by decide, by decide⟩,
    link_style_substring (str "link A B \"[total]\"") 0 initState
      (by decide) ⟨by decide, by decide⟩⟩

end EER
